import Mathlib

/-!
# DietSerial: the receive pipeline of `AVR_USART`

A shallow embedding of the receive side of `src/DietSerial.cpp` together with
the watchdog second timer of `src/WDTSecondTimer.h`.

* Machine state is explicit: the two private fields of `AVR_USART`, the part of
  USART0 that the receive code touches (receive buffer, `DOR0`), the watchdog
  tick counter, and a schedule of what the outside world does while the code
  busy-waits.
* `uint8_t` values are natural numbers reduced `% 256`, `char` is a signed
  integer in `-128 .. 127`, `size_t` and `int` are the 16 bit types of AVR.
* Caller buffers are lists: index `i` of the list is `buf[i]`.
-/

namespace DietSerial

/-! ## Hardware -/

/-- One received frame as it sits in the receive buffer: the data byte and the
frame-error and parity-error flags that `UCSR0A` shows while it is at the head. -/
structure Frame where
  data : Nat
  fe : Bool
  upe : Bool
deriving DecidableEq, Repr

/-- What the outside world does between two polls of the wait loop. -/
inductive Event where
  | arrive (f : Frame)
  | tick
  | idle
deriving DecidableEq, Repr

/-- The `LookaheadMode` enumeration of `DietSerial.h`. -/
inductive LookaheadMode where
  | SKIP_ALL
  | SKIP_NONE
  | SKIP_WHITESPACE
deriving DecidableEq, Repr

/-- Engine fields (`timeout_seconds_`, `receive_err_`), the receiver of USART0
(`rxFifo` is the receive buffer with `UDR0` at its head, `RXC0` is set exactly
when it is non-empty), the watchdog timer (`WDTOn` is the interrupt enable,
`WDTSecondsElapsed` the shared counter) and the schedule of future events. -/
structure State where
  timeout_seconds_ : Nat
  receive_err_ : Nat
  rxFifo : List Frame
  DOR0 : Bool
  WDTOn : Bool
  WDTSecondsElapsed : Nat
  future : List Event
deriving DecidableEq, Repr

/-- `UCSR0A & (1<<RXC0)`: a received byte is waiting in `UDR0`. -/
def RXC0 (s : State) : Bool := !s.rxFifo.isEmpty

/-- `UCSR0A & (1<<FE0)` for the byte at the head of the receive buffer. -/
def FE0 (s : State) : Bool :=
  match s.rxFifo with
  | [] => false
  | f :: _ => f.fe

/-- `UCSR0A & (1<<UPE0)` for the byte at the head of the receive buffer. -/
def UPE0 (s : State) : Bool :=
  match s.rxFifo with
  | [] => false
  | f :: _ => f.upe

/-- Reading `UDR0` yields the byte at the head of the receive buffer and removes
it; with nothing received the register reads as 0 here. -/
def readUDR0 (s : State) : Nat × State :=
  match s.rxFifo with
  | [] => (0, s)
  | f :: rest => (f.data % 256, { s with rxFifo := rest })

/-- `ISR(WDT_vect)`: `++WDTSecondsElapsed` on a `uint8_t`, when the watchdog
interrupt is enabled. -/
def wdtISR (s : State) : State :=
  if s.WDTOn then { s with WDTSecondsElapsed := (s.WDTSecondsElapsed + 1) % 256 } else s

/-- The effect of one event on the machine. -/
def applyEvent (ev : Event) (s : State) : State :=
  match ev with
  | Event.arrive f => { s with rxFifo := s.rxFifo ++ [f] }
  | Event.tick => wdtISR s
  | Event.idle => s

/-- The outside world acts once before each poll of the wait loop.  When the
schedule is used up the line stays silent and the watchdog keeps ticking. -/
def worldStep (s : State) : State :=
  match s.future with
  | [] => wdtISR s
  | ev :: rest => applyEvent ev { s with future := rest }

/-- `WDTSecondTimer::begin` (the constructor): interrupt on, counter zeroed. -/
def WDTSecondTimer_begin (s : State) : State :=
  { s with WDTOn := true, WDTSecondsElapsed := 0 }

/-- `WDTSecondTimer::reset`. -/
def WDTSecondTimer_reset (s : State) : State :=
  { s with WDTSecondsElapsed := 0 }

/-- `WDTSecondTimer::tick`. -/
def WDTSecondTimer_tick (s : State) : Nat := s.WDTSecondsElapsed

/-- `WDTSecondTimer::end` (the destructor): watchdog off. -/
def WDTSecondTimer_end (s : State) : State :=
  { s with WDTOn := false }

/-! ## Engine accessors -/

/-- `AVR_USART::error`. -/
def error (s : State) : Nat × State := (s.receive_err_, s)

/-- `AVR_USART::getTimeout`. -/
def getTimeout (s : State) : Nat × State := (s.timeout_seconds_, s)

/-- `AVR_USART::setTimeout`, the argument is a `uint8_t`. -/
def setTimeout (newto : Nat) (s : State) : State :=
  { s with timeout_seconds_ := newto % 256 }

/-! ## Byte acquisition -/

/-- `AVR_USART::rxcompleted`. -/
def rxcompleted (s : State) : Nat × State :=
  let s := if FE0 s || UPE0 s then { s with receive_err_ := 2 } else s
  readUDR0 s

/-- The `do { ... } while (rxTimer.tick() < timeout_seconds_)` loop of `rxwait`.
The first argument bounds the number of polls; `rxwait` passes a bound that the
loop cannot reach when `timeout_seconds_` is a `uint8_t` (`rxwaitLoop_fuel`). -/
def rxwaitLoop : Nat → State → Nat × State
  | 0, s => (0x15, { s with receive_err_ := 1 })
  | n + 1, s =>
    let s := worldStep s
    if RXC0 s then rxcompleted s
    else if WDTSecondTimer_tick s < s.timeout_seconds_ then rxwaitLoop n s
    else (0x15, { s with receive_err_ := 1 })

/-- `AVR_USART::rxwait`. -/
def rxwait (s : State) : Nat × State :=
  let s := WDTSecondTimer_begin s
  let s := WDTSecondTimer_reset s
  let r := rxwaitLoop (s.future.length + 256) s
  (r.1, WDTSecondTimer_end r.2)

/-- The `do { dummy = UDR0; } while (UCSR0A & (1<<RXC0))` loop of `readByte`;
every pass removes one frame, so the length of the receive buffer bounds it. -/
def drainLoop : Nat → State → State
  | 0, s => (readUDR0 s).2
  | n + 1, s =>
    let s := (readUDR0 s).2
    if RXC0 s then drainLoop n s else s

/-- `AVR_USART::readByte`. -/
def readByte (s : State) : Nat × State :=
  let s := { s with receive_err_ := 0 }
  let s := if s.DOR0 then { drainLoop s.rxFifo.length s with DOR0 := false } else s
  if RXC0 s then rxcompleted s else rxwait s

/-- `AVR_USART::read`: the byte converted to `char`. -/
def toChar (b : Nat) : Int :=
  if b % 256 < 128 then (b % 256 : Nat) else ((b % 256 : Nat) : Int) - 256

/-- `AVR_USART::read`. -/
def read (s : State) : Int × State :=
  let r := readByte s
  (toChar r.1, r.2)

/-! ## Filter predicate -/

/-- `AVR_USART::wantChar`. -/
def wantChar (c : Int) (mode : LookaheadMode) (unwanted : Int) : Bool :=
  if mode = LookaheadMode.SKIP_ALL then
    if c = 48 ∨ c = 49 ∨ c = 50 ∨ c = 51 ∨ c = 52 ∨ c = 53 ∨ c = 54 ∨ c = 55 ∨ c = 56
        ∨ c = 57 ∨ c = 45 ∨ c = 43 ∨ c = 46 then
      decide (c ≠ unwanted)
    else false
  else if mode = LookaheadMode.SKIP_WHITESPACE then
    if c = 32 ∨ c = 9 ∨ c = 11 then false
    else decide (c ≠ unwanted)
  else decide (c ≠ unwanted)

/-! ## Multi-byte binary reads -/

/-- The `while (i < bufLen)` loop of `readBytes`; the first argument counts the
passes that are left, `bufLen - i`. -/
def readBytesLoop (bufLen : Nat) : Nat → Nat → List Nat → State → Nat × List Nat × State
  | 0, i, buf, s => (i, buf, s)
  | fuel + 1, i, buf, s =>
    if i < bufLen then
      let r := readByte s
      let newByte := r.1
      let s := r.2
      if s.receive_err_ ≠ 0 then (i, buf, s)
      else readBytesLoop bufLen fuel (i + 1) (buf.set i newByte) s
    else (i, buf, s)

/-- `AVR_USART::readBytes`: returned count, buffer and machine state. -/
def readBytes (buf : List Nat) (bufLen : Nat) (s : State) : Nat × List Nat × State :=
  if bufLen = 0 then (0, buf, { s with receive_err_ := 8 })
  else readBytesLoop bufLen bufLen 0 buf s

/-! ## Delimited line read -/

/-- The code of `readString` after its loop: `buf[--i] = 0; receive_err_ = 8;
return ++i;`.  It runs only with `i == bufLen`, which is at least 1. -/
def readStringFull (i : Nat) (buf : List Int) (s : State) : Nat × List Int × State :=
  let i := i - 1
  let buf := buf.set i 0
  let s := { s with receive_err_ := 8 }
  (i + 1, buf, s)

/-- The `while (i < bufLen)` loop of `readString` followed by the code after it;
the first argument counts the passes that are left, `bufLen - i`. -/
def readStringLoop (bufLen : Nat) : Nat → Nat → List Int → State → Nat × List Int × State
  | 0, i, buf, s => readStringFull i buf s
  | fuel + 1, i, buf, s =>
    if i < bufLen then
      let r := readByte s
      let c := toChar r.1
      let s := r.2
      let s := if s.receive_err_ = 0 ∧ c < 0 then { s with receive_err_ := 2 } else s
      if s.receive_err_ ≠ 0 then (i, buf, s)
      else
        let cs : Int × State :=
          if c = 13 then (0, (readByte s).2)
          else if c = 10 then (0, s)
          else (c, s)
        let c := cs.1
        let s := cs.2
        let buf := buf.set i c
        let i := i + 1
        if c = 0 then (i, buf, s)
        else readStringLoop bufLen fuel i buf s
    else readStringFull i buf s

/-- `AVR_USART::readString`: returned length, buffer and machine state. -/
def readString (buf : List Int) (bufLen : Nat) (s : State) : Nat × List Int × State :=
  if bufLen = 0 then (0, buf, { s with receive_err_ := 8 })
  else readStringLoop bufLen bufLen 0 buf { s with receive_err_ := 0 }

/-! ## Filtered token read -/

/-- The substitution at the head of `readStringExcept`: null, CR and LF cannot be
excluded and are replaced by `0x7f`. -/
def unwantedOf (ignore : Int) : Int :=
  let unwanted := ignore
  let unwanted := if unwanted = 0 then 127 else unwanted
  let unwanted := if unwanted = 13 then 127 else unwanted
  let unwanted := if unwanted = 10 then 127 else unwanted
  unwanted

/-- The code of `readStringExcept` after its loop. -/
def readStringExceptTail (bufLen : Nat) (i : Nat) (buf : List Int) (s : State) :
    Nat × List Int × State :=
  if i ≥ bufLen - 1 then
    let i := if i ≥ bufLen then bufLen - 1 else i
    (i, buf.set i 0, { s with receive_err_ := 8 })
  else if i = 0 then (i, buf.set i 0, s)
  else (i - 1, buf.set i 0, s)

/-- Everything still to come from the outside: frames in the receive buffer and
events of the schedule.  Every read that reports no error uses up one of them. -/
def pendingSize (s : State) : Nat := s.rxFifo.length + s.future.length

/-- The `while (((c = read()) != 0) && (i < bufLen))` loop of `readStringExcept`
followed by the code after it.  The first argument bounds the number of passes;
`readStringExcept` passes `pendingSize s + 1`, which the loop cannot use up. -/
def readStringExceptLoop (bufLen : Nat) (mode : LookaheadMode) (unwanted : Int) :
    Nat → Nat → List Int → State → Nat × List Int × State
  | 0, i, buf, s => readStringExceptTail bufLen i buf s
  | fuel + 1, i, buf, s =>
    let r := read s
    let c := r.1
    let s := r.2
    if c ≠ 0 ∧ i < bufLen then
      if s.receive_err_ ≠ 0 ∨ c < 32 then
        (if i > 0 then i - 1 else i, buf.set i 0, s)
      else if wantChar c mode unwanted then
        readStringExceptLoop bufLen mode unwanted fuel (i + 1) (buf.set i c) s
      else readStringExceptLoop bufLen mode unwanted fuel i buf s
    else readStringExceptTail bufLen i buf s

/-- `AVR_USART::readStringExcept`: returned length, buffer and machine state. -/
def readStringExcept (buf : List Int) (bufLen : Nat) (mode : LookaheadMode) (ignore : Int)
    (s : State) : Nat × List Int × State :=
  if bufLen = 0 then (8, buf, { s with receive_err_ := 8 })
  else
    let unwanted := unwantedOf ignore
    let s := { s with receive_err_ := 0 }
    readStringExceptLoop bufLen mode unwanted (pendingSize s + 1) 0 buf s

/-! ## Numeric parse of a buffer -/

/-- Conversion of a `size_t` to the 16 bit `int` of AVR. -/
def toInt16 (n : Nat) : Int :=
  if n % 65536 < 32768 then ((n % 65536 : Nat) : Int) else ((n % 65536 : Nat) : Int) - 65536

/-- C library `isspace` in the C locale. -/
def isspace (c : Int) : Bool := c = 32 ∨ (9 ≤ c ∧ c ≤ 13)

/-- C library `isdigit`. -/
def isdigit (c : Int) : Bool := 48 ≤ c ∧ c ≤ 57

/-- The digit loop of `atol`: accumulate decimal digits, stop at the first
character that is not a digit (in particular at the terminating null). -/
def atolDigits : Int → List Int → Int
  | acc, [] => acc
  | acc, c :: cs => if isdigit c then atolDigits (acc * 10 + (c - 48)) cs else acc

/-- After the white space: an optional sign, then the digits. -/
def atolSigned : List Int → Int
  | [] => 0
  | c :: cs =>
    if c = 45 then -(atolDigits 0 cs)
    else if c = 43 then atolDigits 0 cs
    else atolDigits 0 (c :: cs)

/-- Skip leading white space. -/
def atolSkip : List Int → Int
  | [] => 0
  | c :: cs => if isspace c then atolSkip cs else atolSigned (c :: cs)

/-- Reduction of an integer to the 32 bit `long` of AVR. -/
def toLong (z : Int) : Int := (z + 2147483648) % 4294967296 - 2147483648

/-- C library `atol` (avr-libc, not part of this repository) applied to the
characters found at a `char*`: white space, an optional sign, decimal digits,
no overflow detection. -/
def atol (str : List Int) : Int := toLong (atolSkip str)

/-- The `for (int i = 0; i < (int)bufLen; i++)` loop of the buffer-sourced
`parseInt`; the first argument counts the passes that are left.  Returns `j`
and the buffer. -/
def parseIntLoop (bufLen : Nat) : Nat → Int → Int → List Int → Int × List Int
  | 0, _, j, buf => (j, buf)
  | fuel + 1, i, j, buf =>
    if i < toInt16 bufLen then
      if buf.getD i.toNat 0 = 0 then (j, buf)
      else if wantChar (buf.getD i.toNat 0) LookaheadMode.SKIP_ALL 127 then
        let j := j + 1
        let buf := if j < i then buf.set j.toNat (buf.getD i.toNat 0) else buf
        parseIntLoop bufLen fuel (i + 1) j buf
      else parseIntLoop bufLen fuel (i + 1) j buf
    else (j, buf)

/-- `AVR_USART::parseInt(char* buf, const size_t bufLen)`: returned value and
the buffer as the call leaves it. -/
def parseIntBuf (buf : List Int) (bufLen : Nat) : Int × List Int :=
  let r := parseIntLoop bufLen (toInt16 bufLen).toNat 0 (-1) buf
  let j := r.1
  let buf := r.2
  if j > 0 then
    let j := j + 1
    let j := if j > toInt16 (bufLen + 65535) then toInt16 (bufLen + 65535) else j
    let buf := buf.set j.toNat 0
    (atol buf, buf)
  else (0, buf)

/-! ## Reference definitions used by the statements -/

/-- The filter as the specification words it: `SKIP_ALL` accepts the digits and
`+ - .`, `SKIP_WHITESPACE` rejects space, tab and vertical tab, `SKIP_NONE`
accepts everything; in every mode the excluded character `x` is rejected. -/
def wantCharRef (c : Int) (mode : LookaheadMode) (x : Int) : Bool :=
  match mode with
  | LookaheadMode.SKIP_ALL => decide (((48 ≤ c ∧ c ≤ 57) ∨ c = 43 ∨ c = 45 ∨ c = 46) ∧ c ≠ x)
  | LookaheadMode.SKIP_WHITESPACE => decide ((c ≠ 32 ∧ c ≠ 9 ∧ c ≠ 11) ∧ c ≠ x)
  | LookaheadMode.SKIP_NONE => decide (c ≠ x)

/-- `Delivers s bs s'`: from machine state `s` the stream delivers the bytes `bs`
cleanly: successive calls of `readByte` return them in order, each with error
code 0 (no fault, no timeout), and leave the machine in state `s'`. -/
def Delivers : State → List Nat → State → Prop
  | s, [], s' => s' = s
  | s, b :: bs, s' =>
    (readByte s).1 = b ∧ (readByte s).2.receive_err_ = 0 ∧ Delivers (readByte s).2 bs s'

/-- A machine with the given timeout, receive buffer and schedule, nothing else set. -/
def mkState (timeout : Nat) (fifo : List Frame) (future : List Event) : State :=
  { timeout_seconds_ := timeout, receive_err_ := 0, rxFifo := fifo, DOR0 := false,
    WDTOn := false, WDTSecondsElapsed := 0, future := future }

/-- Frames received without frame or parity error. -/
def cleanFrames (bs : List Nat) : List Frame :=
  bs.map (fun b => { data := b, fe := false, upe := false })

/-- Store `xs` at `buf[i]`, `buf[i+1]`, ... one element after the other. -/
def writeAt {α : Type} : List α → Nat → List α → List α
  | buf, _, [] => buf
  | buf, i, x :: xs => writeAt (buf.set i x) (i + 1) xs

/-- A text character of `readString`: a byte in 1..127 other than CR and LF. -/
@[reducible] def lineChar (b : Nat) : Prop := 1 ≤ b ∧ b ≤ 127 ∧ b ≠ 13 ∧ b ≠ 10

/-- The outcome of at most `n` successive calls of `readByte`, stopping after the
first call that reports an error: the bytes returned by the calls before that
one, in order, and the machine state after the last call made. -/
def okBytes : Nat → State → List Nat × State
  | 0, s => ([], s)
  | n + 1, s =>
    let r := readByte s
    if r.2.receive_err_ ≠ 0 then ([], r.2)
    else
      let t := okBytes n r.2
      (r.1 :: t.1, t.2)

/-- Example machine: six frames are waiting, the fourth carries a frame error. -/
def fourthGarbled : State :=
  mkState 90 (cleanFrames [1, 2, 3] ++ [Frame.mk 4 true false] ++ cleanFrames [5, 6]) []

/-- Example machine for the line `"VALUE\r\n"`: `"VA"` is waiting in the receive
buffer, the rest arrives while the code polls, with idle polls and a watchdog
tick in between. -/
def lineVALUE : State :=
  mkState 90 (cleanFrames [86, 65])
    [Event.arrive (Frame.mk 76 false false), Event.idle, Event.arrive (Frame.mk 85 false false),
     Event.tick, Event.arrive (Frame.mk 69 false false), Event.arrive (Frame.mk 13 false false),
     Event.idle, Event.idle, Event.arrive (Frame.mk 10 false false)]

/-- Example machine: the frames of `"VALU"` are waiting. -/
def textVALU : State := mkState 90 (cleanFrames [86, 65, 76, 85]) []

/-- The characters of the received bytes `p` that `wantChar` accepts for the
given mode and excluded character, in their original order. -/
def accepted (p : List Nat) (mode : LookaheadMode) (excluded : Int) : List Int :=
  (p.map Int.ofNat).filter (fun c => wantChar c mode excluded)

/-- Example machine: the frames of DEL (0x7F) and LF are waiting. -/
def lineDEL : State := mkState 90 (cleanFrames [127, 10]) []

/-- Example machine: the frames of `"  -12.5abc\n"` are waiting. -/
def lineNumber : State :=
  mkState 90 (cleanFrames [32, 32, 45, 49, 50, 46, 53, 97, 98, 99, 10]) []

/-- Whether a stream delivers given bytes is decided by running `readByte`. -/
instance decDelivers : (bs : List Nat) → (s s' : State) → Decidable (Delivers s bs s')
  | [], s, s' => inferInstanceAs (Decidable (s' = s))
  | b :: bs, s, s' =>
    let _ := decDelivers bs (readByte s).2 s'
    inferInstanceAs (Decidable ((readByte s).1 = b ∧ (readByte s).2.receive_err_ = 0
      ∧ Delivers (readByte s).2 bs s'))

/-- The characters of a text that `wantChar` accepts in mode `SKIP_ALL` with the
excluded character 0x7F, as the buffer-sourced `parseInt` calls it: the digits
and `+ - .`, in their original order. -/
def keepNumeric (txt : List Int) : List Int :=
  txt.filter (fun c => wantChar c LookaheadMode.SKIP_ALL 127)

/-- The watchdog count that the budget check following poll number `k` (counted
from 1) of a wait reads while nothing arrives: the ticks among the first `k`
events, the world ticking once per poll after the schedule is used up. -/
def ticksSeen (future : List Event) (k : Nat) : Nat :=
  (future.take k).count Event.tick + (k - future.length)

/-- Example machine with budget 2: nothing is waiting, the second tick comes
before the fourth poll, a frame arrives only later. -/
def silentLine : State :=
  { timeout_seconds_ := 2, receive_err_ := 8, rxFifo := [], DOR0 := false, WDTOn := false,
    WDTSecondsElapsed := 77,
    future := [Event.idle, Event.tick, Event.idle, Event.tick, Event.idle,
               Event.arrive (Frame.mk 65 false false)] }

/-! ## Fixed-width reads and stream-sourced parse -/

/-- `AVR_USART::read4bytes`: the range-for over the four bytes of the
`quadbyte`; `k` is the index of the element reached, the first argument counts
the elements that are left.  Each byte is stored before the error is checked. -/
def read4bytesFrom : Nat → Nat → List Nat → State → List Nat × State
  | 0, _, qb, s => (qb, s)
  | n + 1, k, qb, s =>
    let r := readByte s
    let qb := qb.set k r.1
    let s := r.2
    if s.receive_err_ ≠ 0 then (qb, s)
    else read4bytesFrom n (k + 1) qb s

/-- `AVR_USART::read4bytes`. -/
def read4bytes (qb : List Nat) (s : State) : List Nat × State :=
  read4bytesFrom 4 0 qb s

/-- The `l` member of the `quadbyte` union whose `b` member holds the given
bytes: AVR is little-endian and `long` has 32 bits. -/
def quadbyteLong (b : List Nat) : Int :=
  toLong (((b.getD 0 0) % 256 + 256 * ((b.getD 1 0) % 256) + 65536 * ((b.getD 2 0) % 256)
    + 16777216 * ((b.getD 3 0) % 256) : Nat) : Int)

/-- `AVR_USART::readLong`: `qb.l = 0` zeroes the four bytes. -/
def readLong (s : State) : Int × State :=
  let qb : List Nat := [0, 0, 0, 0]
  let r := read4bytes qb s
  (quadbyteLong r.1, r.2)

/-- `AVR_USART::parseInt(const LookaheadMode mode, const char ignore)`. -/
def parseInt (mode : LookaheadMode) (ignore : Int) (s : State) : Int × State :=
  let buf : List Int := List.replicate 20 0
  let r := readStringExcept buf 20 mode ignore s
  let len := r.1
  let buf := r.2.1
  let s := r.2.2
  if len = 0 ∨ s.receive_err_ ≠ 0 then (0, s)
  else (atol buf, s)

/-- C library `strlen`: the number of characters before the first null. -/
def strlen (str : List Int) : Nat := (str.takeWhile (fun c => c ≠ 0)).length

/-- Example machine: the frames of `"7\n"` are waiting. -/
def lineSeven : State := mkState 90 (cleanFrames [55, 10]) []

/-- Example machine: the frames of `"A\rBC"` are waiting, a line that ends in a
carriage-return with no line-feed behind it. -/
def lineBareCR : State := mkState 90 (cleanFrames [65, 13, 66, 67]) []

/-- Example machine: the frames of `"AB"` and of the byte 0xE9 are waiting. -/
def lineHighBit : State := mkState 90 (cleanFrames [65, 66, 233, 67]) []

/-- Slots `0 .. i-1` of the buffer each hold a non-null character that
`wantChar` accepts, both for the caller's excluded character and for the one
that `readStringExcept` puts in its place. -/
def Stored (mode : LookaheadMode) (ignore : Int) (b : List Int) (i : Nat) : Prop :=
  ∀ k, k < i → ∃ ch, b[k]? = some ch ∧ ch ≠ 0 ∧ wantChar ch mode ignore = true
    ∧ wantChar ch mode (unwantedOf ignore) = true

/-- The buffer holds a null at an index `j <= c - 1` and accepted non-null
characters in all slots before it. -/
def Terminated (mode : LookaheadMode) (ignore : Int) (c : Nat) (b : List Int) : Prop :=
  ∃ j, j ≤ c - 1 ∧ b[j]? = some 0 ∧ Stored mode ignore b j

/-- Example buffer of four slots, none of them null. -/
def scratch4 : List Int := [-1, -1, -1, -1]

/-- The `i` member of the `bytepair` union whose `b` member holds the given
bytes: AVR is little-endian and `int` has 16 bits. -/
def bytepairInt (b : List Nat) : Int :=
  toInt16 ((b.getD 0 0) % 256 + 256 * ((b.getD 1 0) % 256))

/-- `AVR_USART::readInt`.  The `bytepair` is not initialised by the code; both
bytes are written before `bp.i` is read, so its first content does not matter
and is taken as zero here. -/
def readInt (s : State) : Int × State :=
  let bp : List Nat := [0, 0]
  let r := readByte s
  let bp := bp.set 0 r.1
  let s := r.2
  if s.receive_err_ ≠ 0 then (0, s)
  else
    let r := readByte s
    let bp := bp.set 1 r.1
    let s := r.2
    if s.receive_err_ ≠ 0 then (0, s)
    else (bytepairInt bp, s)

/-- Example machine with budget 0: nothing is waiting, a clean frame arrives
before the first poll of the wait. -/
def zeroBudget : State :=
  { timeout_seconds_ := 0, receive_err_ := 8, rxFifo := [], DOR0 := false, WDTOn := false,
    WDTSecondsElapsed := 77,
    future := [Event.arrive (Frame.mk 66 false false), Event.tick] }

/-- Example machine with the overrun flag set: two stale frames are waiting, a
fresh frame arrives during the wait. -/
def overrunLine : State :=
  { timeout_seconds_ := 90, receive_err_ := 0, rxFifo := cleanFrames [1, 2], DOR0 := true,
    WDTOn := false, WDTSecondsElapsed := 0,
    future := [Event.idle, Event.arrive (Frame.mk 65 false false)] }

/-- Example machine: the frames of `"12"` and a null byte are waiting. -/
def tokenNull : State := mkState 90 (cleanFrames [49, 50, 0]) []

/-- Example machine: the frames of `"12\n"` are waiting. -/
def tokenLF : State := mkState 90 (cleanFrames [49, 50, 10]) []

/-- Example machine: the frame of 0x34 is waiting, 0x12 arrives during the wait
with a frame error. -/
def secondGarbled : State :=
  mkState 90 (cleanFrames [52]) [Event.arrive (Frame.mk 18 true false)]

/-- Example machine with budget 2: the frames of `"A\r"` are waiting and nothing
arrives afterwards. -/
def lineCROnly : State := mkState 2 (cleanFrames [65, 13]) []

/-! ## Basic facts about `readByte` -/

theorem readByte_ignores_err (s : State) (e : Nat) :
    readByte { s with receive_err_ := e } = readByte s := by
  simp [readByte]

theorem readUDR0_cons (s : State) (f : Frame) (rest : List Frame) (h : s.rxFifo = f :: rest) :
    readUDR0 s = (f.data % 256, { s with rxFifo := rest }) := by
  simp [readUDR0, h]

theorem readByte_ready (s : State) (f : Frame) (rest : List Frame)
    (hdor : s.DOR0 = false) (h : s.rxFifo = f :: rest) :
    readByte s = (f.data % 256,
      { s with rxFifo := rest, receive_err_ := if f.fe || f.upe then 2 else 0 }) := by
  cases hfe : f.fe <;> cases hupe : f.upe <;>
    simp [readByte, hdor, RXC0, h, rxcompleted, FE0, UPE0, readUDR0, hfe, hupe]

/-! ## The filter predicate -/

/-- C8: `wantChar` is a function of the character, the mode and the excluded
character alone (it takes and returns no machine state) and it agrees with the
reference definition of the three modes for every character and every excluded
character. -/
theorem wantChar_eq_reference (c : Int) (mode : LookaheadMode) (x : Int) :
    wantChar c mode x = wantCharRef c mode x := by
  cases mode <;> simp only [wantChar, wantCharRef, reduceCtorEq, if_true, if_false]
  · by_cases h : c = 48 ∨ c = 49 ∨ c = 50 ∨ c = 51 ∨ c = 52 ∨ c = 53 ∨ c = 54 ∨ c = 55
        ∨ c = 56 ∨ c = 57 ∨ c = 45 ∨ c = 43 ∨ c = 46
    · have h2 : (48 ≤ c ∧ c ≤ 57) ∨ c = 43 ∨ c = 45 ∨ c = 46 := by omega
      simp [h, h2]
    · have h2 : ¬ ((48 ≤ c ∧ c ≤ 57) ∨ c = 43 ∨ c = 45 ∨ c = 46) := by omega
      simp [h, h2]
  · by_cases h : c = 32 ∨ c = 9 ∨ c = 11
    · have h2 : ¬ (c ≠ 32 ∧ c ≠ 9 ∧ c ≠ 11) := by omega
      simp [h, h2]
    · have h2 : c ≠ 32 ∧ c ≠ 9 ∧ c ≠ 11 := by omega
      simp [h, h2]

/-! ## Zero capacity -/

/-- C6: `readBytes` with length 0 and `readString` with capacity 0 return 0, set
the error code to 8 (buffer too small), leave the buffer as it was and leave
every other part of the machine, hardware included, unchanged. -/
theorem zero_capacity_readBytes_readString (s : State) (bytes : List Nat) (chars : List Int) :
    readBytes bytes 0 s = (0, bytes, { s with receive_err_ := 8 }) ∧
    readString chars 0 s = (0, chars, { s with receive_err_ := 8 }) := by
  simp [readBytes, readString]

/-- C7: `readStringExcept` with capacity 0 sets the error code to 8 and touches
neither buffer nor hardware, but the value it returns is 8, not 0. -/
theorem zero_capacity_readStringExcept (s : State) (buf : List Int) (mode : LookaheadMode)
    (ignore : Int) :
    readStringExcept buf 0 mode ignore s = (8, buf, { s with receive_err_ := 8 }) := by
  simp [readStringExcept]

/-! ## A byte that is already there -/

theorem writeAt_append {α : Type} (xs : List α) :
    ∀ (pre mid post : List α), mid.length = xs.length →
      writeAt (pre ++ mid ++ post) pre.length xs = pre ++ xs ++ post := by
  induction xs with
  | nil =>
    intro pre mid post h
    have : mid = [] := List.length_eq_zero.mp (by simpa using h)
    simp [writeAt, this]
  | cons x xs ih =>
    intro pre mid post h
    cases mid with
    | nil => simp at h
    | cons m mid =>
      have h2 : mid.length = xs.length := by simpa using h
      have e : (pre ++ m :: mid ++ post).set pre.length x = (pre ++ [x]) ++ mid ++ post := by
        simp [List.append_assoc]
      rw [writeAt, e]
      have := ih (pre ++ [x]) mid post h2
      simpa [List.append_assoc] using this

theorem writeAt_eq {α : Type} (xs : List α) (buf : List α) (i : Nat)
    (h : i + xs.length ≤ buf.length) :
    writeAt buf i xs = buf.take i ++ xs ++ buf.drop (i + xs.length) := by
  have hb : buf = buf.take i ++ (buf.drop i).take xs.length ++ buf.drop (i + xs.length) := by
    rw [List.append_assoc, ← List.drop_drop, List.take_append_drop, List.take_append_drop]
  have hl : (buf.take i).length = i := by simp; omega
  have := writeAt_append xs (buf.take i) ((buf.drop i).take xs.length)
    (buf.drop (i + xs.length)) (by simp; omega)
  rw [hl, ← hb] at this
  exact this

/-! ## Line reads -/

theorem toChar_of_lt (b : Nat) (h : b < 128) : toChar b = (b : Int) := by
  have : b % 256 = b := Nat.mod_eq_of_lt (by omega)
  simp [toChar, this, h]

theorem delivers_nil (s s' : State) : Delivers s [] s' ↔ s' = s := Iff.rfl

theorem delivers_cons (s s' : State) (b : Nat) (bs : List Nat) :
    Delivers s (b :: bs) s' ↔
      (readByte s).1 = b ∧ (readByte s).2.receive_err_ = 0 ∧ Delivers (readByte s).2 bs s' :=
  Iff.rfl

theorem delivers_reset (s : State) (e : Nat) (b : Nat) (bs : List Nat) (s' : State) :
    Delivers { s with receive_err_ := e } (b :: bs) s' ↔ Delivers s (b :: bs) s' := by
  simp only [delivers_cons, readByte_ignores_err]

theorem delivers_append (xs : List Nat) : ∀ (ys : List Nat) (s s' : State),
    Delivers s (xs ++ ys) s' ↔ ∃ m, Delivers s xs m ∧ Delivers m ys s' := by
  induction xs with
  | nil => intro ys s s'; simp [delivers_nil]
  | cons x xs ih =>
    intro ys s s'
    rw [List.cons_append, delivers_cons, ih]
    constructor
    · rintro ⟨h1, h2, m, h3, h4⟩
      exact ⟨m, ⟨h1, h2, h3⟩, h4⟩
    · rintro ⟨m, ⟨h1, h2, h3⟩, h4⟩
      exact ⟨h1, h2, m, h3, h4⟩

theorem delivers_err (b : Nat) (bs : List Nat) : ∀ (s s' : State),
    Delivers s (b :: bs) s' → s'.receive_err_ = 0 := by
  induction bs generalizing b with
  | nil => intro s s' h; simp [Delivers] at h; rw [h.2.2]; exact h.2.1
  | cons c cs ih => intro s s' h; exact ih c _ s' h.2.2

theorem readStringLoop_step (bufLen fuel i : Nat) (buf : List Int) (s : State) (b : Nat)
    (hb : lineChar b) (hv : (readByte s).1 = b) (he : (readByte s).2.receive_err_ = 0)
    (hi : i < bufLen) :
    readStringLoop bufLen (fuel + 1) i buf s
      = readStringLoop bufLen fuel (i + 1) (buf.set i (b : Int)) (readByte s).2 := by
  obtain ⟨h1, h2, h3, h4⟩ := hb
  have hc : toChar b = (b : Int) := toChar_of_lt b (by omega)
  have n13 : ¬ ((b : Int) = 13) := by omega
  have n10 : ¬ ((b : Int) = 10) := by omega
  have n0 : ¬ ((b : Int) = 0) := by omega
  have nneg : ¬ ((b : Int) < 0) := by omega
  simp only [readStringLoop, hi, if_true, hv, hc, he, nneg, and_false, if_false, ne_eq,
    not_true_eq_false, n13, n10, n0]

theorem readStringLoop_run (bufLen : Nat) (bs : List Nat) :
    ∀ (fuel i : Nat) (buf : List Int) (s s' : State),
      (∀ b ∈ bs, lineChar b) → Delivers s bs s' → i + bs.length ≤ bufLen →
      readStringLoop bufLen (fuel + bs.length) i buf s
        = readStringLoop bufLen fuel (i + bs.length) (writeAt buf i (bs.map Int.ofNat)) s' := by
  induction bs with
  | nil => intro fuel i buf s s' _ hd _; simp [Delivers] at hd; simp [writeAt, hd]
  | cons b bs ih =>
    intro fuel i buf s s' hb hd hi
    obtain ⟨hv, he, hd'⟩ := hd
    simp only [List.length_cons] at hi ⊢
    have e1 : fuel + (bs.length + 1) = (fuel + bs.length) + 1 := by omega
    rw [e1, readStringLoop_step bufLen _ i buf s b (hb b (by simp)) hv he (by omega)]
    rw [ih fuel (i + 1) _ _ s' (fun x hx => hb x (by simp [hx])) hd' (by omega)]
    have e2 : i + 1 + bs.length = i + (bs.length + 1) := by omega
    simp [writeAt, e2]

theorem delivers_reset_of_ne (s : State) (e : Nat) (bs : List Nat) (s' : State) (h : bs ≠ []) :
    Delivers { s with receive_err_ := e } bs s' ↔ Delivers s bs s' := by
  cases bs with
  | nil => exact absurd rfl h
  | cons b bs => exact delivers_reset s e b bs s'

theorem set_last_append (xs rest : List Int) (h : xs ≠ []) :
    (xs ++ rest).set (xs.length - 1) 0 = xs.take (xs.length - 1) ++ [0] ++ rest := by
  obtain ⟨ys, y, rfl⟩ : ∃ ys y, xs = ys ++ [y] := by
    rcases List.eq_nil_or_concat xs with h0 | ⟨ys, y, h1⟩
    · exact absurd h0 h
    · exact ⟨ys, y, by simpa using h1⟩
  simp [List.append_assoc]

/-- What `readString` does with a line that fits: the text is stored, the line
end becomes a null, CR and LF are both read, and the value returned is the
number of slots written, the null included. -/
theorem readString_line (buf : List Int) (bufLen : Nat) (s s' : State) (bs : List Nat)
    (hbs : ∀ b ∈ bs, lineChar b) (hd : Delivers s (bs ++ [13, 10]) s')
    (hlen : bs.length < bufLen) (hcap : bufLen ≤ buf.length) :
    readString buf bufLen s
      = (bs.length + 1, bs.map Int.ofNat ++ [0] ++ buf.drop (bs.length + 1), s') := by
  have hd0 : Delivers { s with receive_err_ := 0 } (bs ++ [13, 10]) s' :=
    (delivers_reset_of_ne s 0 _ s' (by simp)).mpr hd
  obtain ⟨m, hm, hcr⟩ := (delivers_append bs [13, 10] _ s').mp hd0
  obtain ⟨hv, he, hv2, _, hs'⟩ := hcr
  have hne : bufLen ≠ 0 := by omega
  obtain ⟨fuel, hf⟩ : ∃ fuel, bufLen = (fuel + 1) + bs.length := ⟨bufLen - bs.length - 1, by omega⟩
  have hrun := readStringLoop_run bufLen bs (fuel + 1) 0 buf _ m hbs hm (by omega)
  have hfuel : ∀ st, readStringLoop bufLen bufLen 0 buf st
      = readStringLoop bufLen (fuel + 1 + bs.length) 0 buf st := by
    intro st; rw [← hf]
  rw [readString, if_neg hne, hfuel, hrun]
  have hi : 0 + bs.length < bufLen := by omega
  have hc : toChar 13 = 13 := by decide
  have hw := writeAt_eq (bs.map Int.ofNat) buf 0 (by simp; omega)
  rw [delivers_nil] at hs'
  simp only [readStringLoop, hi, if_true, hv, hc, he]
  simp only [List.length_map, Nat.zero_add, List.take_zero, List.nil_append] at hw
  have hdrop : buf.drop bs.length = buf[bs.length] :: buf.drop (bs.length + 1) :=
    List.drop_eq_getElem_cons (by omega)
  have h13 : ¬ (True ∧ (13 : Int) < 0) := by omega
  have hset : (bs.map Int.ofNat ++ buf.drop bs.length).set bs.length 0
      = bs.map Int.ofNat ++ [0] ++ buf.drop (bs.length + 1) := by
    rw [List.set_append_right _ _ (by simp)]
    simp only [List.length_map, Nat.sub_self, List.append_assoc, List.singleton_append]
    rw [hdrop]
    rfl
  rw [hw, hs']
  simp only [h13, if_false, he, ne_eq, not_true_eq_false, Nat.zero_add, hset]

/-- C10: when the first `c` bytes are text characters that arrive cleanly, with
`c >= 1` the capacity, `readString` returns `c`, sets the error code to 8, and
leaves the first `c - 1` of them followed by a null in slot `c - 1`; every slot
from index `c` on is as it was. -/
theorem readString_capacity_exhausted (buf : List Int) (c : Nat) (s s' : State) (bs : List Nat)
    (hc : 1 ≤ c) (hcap : c ≤ buf.length) (hlen : bs.length = c)
    (hbs : ∀ b ∈ bs, lineChar b) (hd : Delivers s bs s') :
    readString buf c s
      = (c, (bs.take (c - 1)).map Int.ofNat ++ [0] ++ buf.drop c,
          { s' with receive_err_ := 8 }) := by
  have hbne : bs ≠ [] := by
    intro h; rw [h] at hlen; simp at hlen; omega
  have hd0 : Delivers { s with receive_err_ := 0 } bs s' :=
    (delivers_reset_of_ne s 0 _ s' hbne).mpr hd
  have hrun := readStringLoop_run c bs 0 0 buf _ s' hbs hd0 (by omega)
  have hw := writeAt_eq (bs.map Int.ofNat) buf 0 (by simp; omega)
  simp only [List.length_map, Nat.zero_add, List.take_zero, List.nil_append, hlen] at hw hrun
  have hne : c ≠ 0 := by omega
  rw [readString, if_neg hne, hrun, hw]
  have hmne : bs.map Int.ofNat ≠ [] := by simpa using hbne
  have hset := set_last_append (bs.map Int.ofNat) (buf.drop c) hmne
  simp only [List.length_map, hlen] at hset
  simp only [readStringLoop, readStringFull, hset]
  have : c - 1 + 1 = c := by omega
  simp [this, List.map_take]

/-- C1: on the stream `"VALUE\r\n"`, delivered cleanly into a buffer of capacity
8, `readString` stores `"VALUE"` and a null, leaves error code 0 and reads both
CR and LF, but the value it returns is 6, the text length plus one, not 5. -/
theorem readString_VALUE_returns_six :
    Delivers lineVALUE [86, 65, 76, 85, 69, 13, 10] (mkState 90 [] []) ∧
    readString [-1, -1, -1, -1, -1, -1, -1, -1] 8 lineVALUE
      = (6, [86, 65, 76, 85, 69, 0, -1, -1], mkState 90 [] []) :=
  ⟨by decide, by decide⟩

theorem readString_capacity_exhausted_witness :
    readString [-1, -1, -1, -1] 3 textVALU
      = (3, [86, 65, 0, -1], { mkState 90 (cleanFrames [85]) [] with receive_err_ := 8 }) :=
  readString_capacity_exhausted [-1, -1, -1, -1] 3 textVALU
    (mkState 90 (cleanFrames [85]) []) [86, 65, 76] (by decide) (by decide) rfl (by decide)
    ⟨rfl, rfl, rfl, rfl, rfl, rfl, rfl⟩

/-! ## The wait loop: error codes and consumption -/

theorem drainLoop_all (l : List Frame) : ∀ (s : State), s.rxFifo = l →
    drainLoop l.length s = { s with rxFifo := [] } := by
  induction l with
  | nil =>
    intro s h
    simp [drainLoop, readUDR0, h]
    cases s; simp_all
  | cons f rest ih =>
    intro s h
    simp only [List.length_cons, drainLoop, readUDR0, h]
    cases rest with
    | nil => simp [RXC0]
    | cons g rest' =>
      have := ih { s with rxFifo := g :: rest' } rfl
      simp only [RXC0, List.isEmpty_cons, Bool.not_false, if_true]
      simpa using this

theorem rxcompleted_cons (s : State) (f : Frame) (rest : List Frame) (h : s.rxFifo = f :: rest) :
    rxcompleted s = (f.data % 256,
      { s with rxFifo := rest,
               receive_err_ := if f.fe || f.upe then 2 else s.receive_err_ }) := by
  cases hfe : f.fe <;> cases hupe : f.upe <;>
    simp [rxcompleted, FE0, UPE0, readUDR0, h, hfe, hupe]

theorem readByte_wait (s : State) (hdor : s.DOR0 = false) (hf : s.rxFifo = []) :
    readByte s =
      ((rxwaitLoop (s.future.length + 256)
          { s with receive_err_ := 0, WDTOn := true, WDTSecondsElapsed := 0 }).1,
       { (rxwaitLoop (s.future.length + 256)
          { s with receive_err_ := 0, WDTOn := true, WDTSecondsElapsed := 0 }).2
         with WDTOn := false }) := by
  simp [readByte, hdor, RXC0, hf, rxwait, WDTSecondTimer_begin, WDTSecondTimer_reset,
    WDTSecondTimer_end]

theorem readByte_overrun (s : State) (hdor : s.DOR0 = true) :
    readByte s =
      ((rxwaitLoop (s.future.length + 256)
          { s with receive_err_ := 0, rxFifo := [], DOR0 := false, WDTOn := true,
                   WDTSecondsElapsed := 0 }).1,
       { (rxwaitLoop (s.future.length + 256)
          { s with receive_err_ := 0, rxFifo := [], DOR0 := false, WDTOn := true,
                   WDTSecondsElapsed := 0 }).2
         with WDTOn := false }) := by
  have hd := drainLoop_all s.rxFifo
    { timeout_seconds_ := s.timeout_seconds_, receive_err_ := 0, rxFifo := s.rxFifo,
      DOR0 := true, WDTOn := s.WDTOn, WDTSecondsElapsed := s.WDTSecondsElapsed,
      future := s.future } rfl
  simp only [readByte, hdor, if_true]
  rw [hd]
  simp [RXC0, rxwait, WDTSecondTimer_begin, WDTSecondTimer_reset, WDTSecondTimer_end]

theorem worldStep_cases (s : State) (hf : s.rxFifo = []) :
    (∃ f rest, s.future = Event.arrive f :: rest ∧
        worldStep s = { s with rxFifo := [f], future := rest }) ∨
    ((worldStep s).rxFifo = [] ∧ (worldStep s).receive_err_ = s.receive_err_ ∧
      pendingSize (worldStep s) ≤ pendingSize s) := by
  cases hfut : s.future with
  | nil =>
    right
    simp only [worldStep, hfut, wdtISR]
    split <;> simp [pendingSize, hf, hfut]
  | cons ev rest =>
    cases ev with
    | arrive f => left; exact ⟨f, rest, rfl, by simp [worldStep, hfut, applyEvent, hf]⟩
    | tick =>
      right
      simp only [worldStep, hfut, applyEvent, wdtISR]
      split <;> simp [pendingSize, hf, hfut]
    | idle =>
      right
      simp [worldStep, hfut, applyEvent, pendingSize, hf]

theorem rxwaitLoop_facts (n : Nat) : ∀ (s : State), s.rxFifo = [] → s.receive_err_ = 0 →
    ((rxwaitLoop n s).2.receive_err_ = 0 ∨ (rxwaitLoop n s).2.receive_err_ = 1
        ∨ (rxwaitLoop n s).2.receive_err_ = 2) ∧
    ((rxwaitLoop n s).2.receive_err_ = 0 →
        pendingSize (rxwaitLoop n s).2 < pendingSize s) := by
  induction n with
  | zero => intro s _ _; simp [rxwaitLoop]
  | succ n ih =>
    intro s hf he
    rw [rxwaitLoop]
    rcases worldStep_cases s hf with ⟨f, rest, hfut, hw⟩ | ⟨h1, h2, h3⟩
    · rw [hw]
      simp only [RXC0, List.isEmpty_cons, Bool.not_false, if_true]
      rw [rxcompleted_cons _ f [] rfl]
      constructor
      · cases hfe : (f.fe || f.upe) <;> simp [he]
      · intro _; simp [pendingSize, hf, hfut]
    · have hrxc : RXC0 (worldStep s) = false := by simp [RXC0, h1]
      simp only [hrxc, Bool.false_eq_true, if_false]
      split
      · have := ih (worldStep s) h1 (h2.trans he)
        exact ⟨this.1, fun h => lt_of_lt_of_le (this.2 h) h3⟩
      · simp

theorem readByte_facts (s : State) :
    ((readByte s).2.receive_err_ = 0 ∨ (readByte s).2.receive_err_ = 1
        ∨ (readByte s).2.receive_err_ = 2) ∧
    ((readByte s).2.receive_err_ = 0 → pendingSize (readByte s).2 < pendingSize s) := by
  cases hdor : s.DOR0 with
  | true =>
    rw [readByte_overrun s hdor]
    have := rxwaitLoop_facts (s.future.length + 256)
      { s with receive_err_ := 0, rxFifo := [], DOR0 := false, WDTOn := true,
               WDTSecondsElapsed := 0 } rfl rfl
    refine ⟨this.1, fun h => lt_of_lt_of_le (this.2 h) ?_⟩
    simp [pendingSize]
  | false =>
    cases hf : s.rxFifo with
    | nil =>
      rw [readByte_wait s hdor hf]
      have := rxwaitLoop_facts (s.future.length + 256)
        { s with receive_err_ := 0, WDTOn := true, WDTSecondsElapsed := 0 } hf rfl
      refine ⟨this.1, fun h => lt_of_lt_of_le (this.2 h) ?_⟩
      simp [pendingSize]
    | cons f rest =>
      rw [readByte_ready s f rest hdor hf]
      constructor
      · cases hfe : (f.fe || f.upe) <;> simp
      · intro _; simp [pendingSize, hf]

theorem delivers_pendingSize (bs : List Nat) : ∀ (s s' : State), Delivers s bs s' →
    pendingSize s' + bs.length ≤ pendingSize s := by
  induction bs with
  | nil => intro s s' h; rw [delivers_nil] at h; simp [h]
  | cons b bs ih =>
    intro s s' h
    obtain ⟨_, he, hd⟩ := h
    have h1 := ih _ _ hd
    have h2 := (readByte_facts s).2 he
    simp only [List.length_cons]
    omega

/-- Frames that wait in the receive buffer without error flags are delivered
cleanly, one per call. -/
theorem delivers_of_fifo (bs : List Nat) : ∀ (s : State) (rest : List Frame),
    s.DOR0 = false → s.rxFifo = cleanFrames bs ++ rest → bs ≠ [] →
    Delivers s (bs.map (fun b => b % 256)) { s with rxFifo := rest, receive_err_ := 0 } := by
  induction bs with
  | nil => intro s rest _ _ h; exact absurd rfl h
  | cons b bs ih =>
    intro s rest hdor hf _
    have hr := readByte_ready s ⟨b, false, false⟩ (cleanFrames bs ++ rest) hdor
      (by simpa [cleanFrames] using hf)
    simp only [List.map_cons, delivers_cons, hr, Bool.or_self, Bool.false_eq_true, if_false,
      true_and]
    cases bs with
    | nil => simp [delivers_nil, cleanFrames]
    | cons c cs =>
      have := ih { s with rxFifo := cleanFrames (c :: cs) ++ rest, receive_err_ := 0 } rest
        hdor rfl (by simp)
      simpa using this

/-! ## Binary reads -/

theorem okBytes_length_le (n : Nat) : ∀ (s : State), (okBytes n s).1.length ≤ n := by
  induction n with
  | zero => intro s; simp [okBytes]
  | succ n ih =>
    intro s
    simp only [okBytes]
    split
    · simp
    · have := ih (readByte s).2
      simp only [List.length_cons]
      omega

theorem okBytes_err (n : Nat) : ∀ (s : State), 1 ≤ n →
    ((okBytes n s).1.length = n → (okBytes n s).2.receive_err_ = 0) ∧
    ((okBytes n s).1.length < n →
      (okBytes n s).2.receive_err_ = 1 ∨ (okBytes n s).2.receive_err_ = 2) := by
  induction n with
  | zero => intro s h; omega
  | succ n ih =>
    intro s _
    simp only [okBytes]
    split
    · rename_i he
      have := (readByte_facts s).1
      refine ⟨fun h => by simp at h, fun _ => ?_⟩
      simp only []
      omega
    · rename_i he
      have he0 : (readByte s).2.receive_err_ = 0 := by simpa using he
      simp only [List.length_cons, Nat.add_right_cancel_iff, Nat.add_lt_add_iff_right]
      rcases Nat.eq_zero_or_pos n with h0 | hpos
      · subst h0
        simp [okBytes, he0]
      · exact ih (readByte s).2 hpos

theorem readBytesLoop_eq (bufLen : Nat) (fuel : Nat) : ∀ (i : Nat) (buf : List Nat) (s : State),
    i + fuel ≤ bufLen →
    readBytesLoop bufLen fuel i buf s
      = (i + (okBytes fuel s).1.length, writeAt buf i (okBytes fuel s).1, (okBytes fuel s).2) := by
  induction fuel with
  | zero => intro i buf s _; simp [readBytesLoop, okBytes, writeAt]
  | succ fuel ih =>
    intro i buf s h
    have hi : i < bufLen := by omega
    simp only [readBytesLoop, hi, if_true, okBytes]
    split
    · simp [writeAt]
    · rw [ih (i + 1) _ _ (by omega)]
      simp only [List.length_cons, writeAt]
      congr 1
      omega

/-- C4: for `n >= 1`, `readBytes(buf, n)` returns the number `k` of bytes that
`readByte` delivered before its first error (`k = n` when none of the `n` reads
fails); `buf[0..k)` holds those bytes in order and every slot from `k` on is
unchanged; the machine is left as the last `readByte` left it, so the error
code is 0 when `k = n` and otherwise the code of the failing read, 1 (timeout)
or 2 (garbled). -/
theorem readBytes_short_read (buf : List Nat) (n : Nat) (s : State)
    (hn : 1 ≤ n) (hcap : n ≤ buf.length) :
    readBytes buf n s
      = ((okBytes n s).1.length,
         (okBytes n s).1 ++ buf.drop (okBytes n s).1.length,
         (okBytes n s).2) ∧
    (okBytes n s).1.length ≤ n ∧
    ((okBytes n s).1.length = n → (okBytes n s).2.receive_err_ = 0) ∧
    ((okBytes n s).1.length < n →
      (okBytes n s).2.receive_err_ = 1 ∨ (okBytes n s).2.receive_err_ = 2) := by
  have hk := okBytes_length_le n s
  have hne : n ≠ 0 := by omega
  refine ⟨?_, hk, okBytes_err n s hn⟩
  rw [readBytes, if_neg hne, readBytesLoop_eq n n 0 buf s (by omega),
    writeAt_eq _ buf 0 (by omega)]
  simp

/-- The fourth of ten frames carries a frame error: the count is 3, the first
three bytes are stored, slots 3 to 9 keep their content, the error code is 2. -/
theorem readBytes_short_read_witness :
    readBytes [7, 7, 7, 7, 7, 7, 7, 7, 7, 7] 10 fourthGarbled
      = (3, [1, 2, 3, 7, 7, 7, 7, 7, 7, 7],
          { mkState 90 (cleanFrames [5, 6]) [] with receive_err_ := 2 }) := by
  rw [(readBytes_short_read [7, 7, 7, 7, 7, 7, 7, 7, 7, 7] 10 fourthGarbled
    (by decide) (by decide)).1]
  decide

/-! ## Filtered token read -/

theorem readStringExceptLoop_step (bufLen : Nat) (mode : LookaheadMode) (u : Int)
    (fuel i : Nat) (buf : List Int) (s : State) (b : Nat)
    (hb : 32 ≤ b ∧ b ≤ 127) (hv : (readByte s).1 = b) (he : (readByte s).2.receive_err_ = 0)
    (hi : i < bufLen) :
    readStringExceptLoop bufLen mode u (fuel + 1) i buf s
      = if wantChar (b : Int) mode u then
          readStringExceptLoop bufLen mode u fuel (i + 1) (buf.set i (b : Int)) (readByte s).2
        else readStringExceptLoop bufLen mode u fuel i buf (readByte s).2 := by
  have hc : toChar b = (b : Int) := toChar_of_lt b (by omega)
  have n0 : ¬ ((b : Int) = 0) := by omega
  have n32 : ¬ ((b : Int) < 32) := by omega
  simp only [readStringExceptLoop, read, hv, hc, he, ne_eq, n0, not_false_eq_true, hi,
    and_self, if_true, not_true_eq_false, n32, or_self, if_false]

theorem readStringExceptLoop_run (bufLen : Nat) (mode : LookaheadMode) (u : Int)
    (p : List Nat) :
    ∀ (fuel i : Nat) (buf : List Int) (s s' : State),
      (∀ b ∈ p, 32 ≤ b ∧ b ≤ 127) → Delivers s p s' →
      i + (accepted p mode u).length < bufLen →
      readStringExceptLoop bufLen mode u (fuel + p.length) i buf s
        = readStringExceptLoop bufLen mode u fuel (i + (accepted p mode u).length)
            (writeAt buf i (accepted p mode u)) s' := by
  induction p with
  | nil => intro fuel i buf s s' _ hd _; rw [delivers_nil] at hd; simp [accepted, writeAt, hd]
  | cons b bs ih =>
    intro fuel i buf s s' hb hd hi
    obtain ⟨hv, he, hd'⟩ := hd
    have hbs : ∀ x ∈ bs, 32 ≤ x ∧ x ≤ 127 := fun x hx => hb x (by simp [hx])
    have e1 : fuel + (b :: bs).length = (fuel + bs.length) + 1 := by simp; omega
    by_cases hw : wantChar (b : Int) mode u = true
    · have hacc : accepted (b :: bs) mode u = (b : Int) :: accepted bs mode u := by
        simp [accepted, List.filter_cons, hw]
      rw [hacc] at hi ⊢
      simp only [List.length_cons] at hi
      rw [e1, readStringExceptLoop_step bufLen mode u _ i buf s b (hb b (by simp)) hv he
        (by omega), if_pos hw, ih fuel (i + 1) _ _ s' hbs hd' (by omega)]
      have e2 : i + 1 + (accepted bs mode u).length = i + ((accepted bs mode u).length + 1) := by
        omega
      simp [writeAt, e2]
    · have hacc : accepted (b :: bs) mode u = accepted bs mode u := by
        simp [accepted, List.filter_cons, hw]
      rw [hacc] at hi ⊢
      rw [e1, readStringExceptLoop_step bufLen mode u _ i buf s b (hb b (by simp)) hv he
        (by omega), if_neg hw, ih fuel i _ _ s' hbs hd' hi]

theorem readStringExceptLoop_stop (bufLen : Nat) (mode : LookaheadMode) (u : Int)
    (fuel i : Nat) (buf : List Int) (s : State) (t : Nat)
    (ht : t < 32) (hv : (readByte s).1 = t) (he : (readByte s).2.receive_err_ = 0)
    (hi : i < bufLen) :
    (readStringExceptLoop bufLen mode u (fuel + 1) i buf s).2.1 = buf.set i 0 ∧
    ∃ e, (readStringExceptLoop bufLen mode u (fuel + 1) i buf s).2.2
      = { (readByte s).2 with receive_err_ := e } := by
  have hc : toChar t = (t : Int) := toChar_of_lt t (by omega)
  have h32 : (t : Int) < 32 := by omega
  simp only [readStringExceptLoop, read, hv, hc, he, hi, and_true, h32, or_true, if_true]
  by_cases h0 : (t : Int) = 0
  · simp only [h0, ne_eq, not_true_eq_false, if_false, readStringExceptTail]
    have hnge : ¬ (i ≥ bufLen) := by omega
    split
    · simp only [hnge, if_false]
      exact ⟨by trivial, 8, rfl⟩
    · split
      · exact ⟨by trivial, (readByte s).2.receive_err_, rfl⟩
      · exact ⟨by trivial, (readByte s).2.receive_err_, rfl⟩
  · simp only [ne_eq, h0, not_false_eq_true, if_true]
    exact ⟨by trivial, (readByte s).2.receive_err_, rfl⟩

/-- C2, amended: when the stream delivers cleanly a run `p` of bytes in
0x20..0x7F and then a control byte below 0x20, and the characters of `p` that
`wantChar` accepts for the effective excluded character (the caller's, or 0x7F
when the caller passes null, CR or LF) are fewer than the capacity, then
`readStringExcept` leaves exactly those characters, in order, followed by a
null; slots behind the null are unchanged, and exactly `p` and the control byte
have been read. -/
theorem readStringExcept_filters (buf : List Int) (bufLen : Nat) (mode : LookaheadMode)
    (ignore : Int) (s s' : State) (p : List Nat) (t : Nat)
    (hp : ∀ b ∈ p, 32 ≤ b ∧ b ≤ 127) (ht : t < 32) (hd : Delivers s (p ++ [t]) s')
    (hfit : (accepted p mode (unwantedOf ignore)).length < bufLen)
    (hcap : bufLen ≤ buf.length) :
    (readStringExcept buf bufLen mode ignore s).2.1
      = accepted p mode (unwantedOf ignore) ++ [0]
          ++ buf.drop ((accepted p mode (unwantedOf ignore)).length + 1) ∧
    ∃ e, (readStringExcept buf bufLen mode ignore s).2.2 = { s' with receive_err_ := e } := by
  have hd0 : Delivers { s with receive_err_ := 0 } (p ++ [t]) s' :=
    (delivers_reset_of_ne s 0 _ s' (by simp)).mpr hd
  have hsize := delivers_pendingSize _ _ _ hd0
  obtain ⟨m, hm, ht'⟩ := (delivers_append p [t] _ s').mp hd0
  obtain ⟨hv, he, hs'⟩ := ht'
  rw [delivers_nil] at hs'
  simp only [List.length_append, List.length_singleton] at hsize
  obtain ⟨k, hk⟩ : ∃ k, pendingSize { s with receive_err_ := 0 } + 1 = (k + 1) + p.length :=
    ⟨pendingSize { s with receive_err_ := 0 } - p.length, by omega⟩
  have hne : bufLen ≠ 0 := by omega
  have hrun := readStringExceptLoop_run bufLen mode (unwantedOf ignore) p (k + 1) 0 buf _ m
    hp hm (by omega)
  have hstop := readStringExceptLoop_stop bufLen mode (unwantedOf ignore) k
    (0 + (accepted p mode (unwantedOf ignore)).length)
    (writeAt buf 0 (accepted p mode (unwantedOf ignore))) m t ht hv he (by omega)
  have hw := writeAt_eq (accepted p mode (unwantedOf ignore)) buf 0 (by omega)
  have hdrop : buf.drop (accepted p mode (unwantedOf ignore)).length
      = buf[(accepted p mode (unwantedOf ignore)).length]
          :: buf.drop ((accepted p mode (unwantedOf ignore)).length + 1) :=
    List.drop_eq_getElem_cons (by omega)
  simp only [readStringExcept, if_neg hne]
  rw [hk, hrun]
  refine ⟨?_, ?_⟩
  · rw [hstop.1, hw]
    simp only [Nat.zero_add, List.take_zero, List.nil_append]
    rw [List.set_append_right _ _ (le_refl _), Nat.sub_self, hdrop]
    simp only [List.set_cons_zero, List.append_assoc, List.singleton_append]
  · obtain ⟨e, h⟩ := hstop.2
    exact ⟨e, by rw [h, hs']⟩

theorem readStringExcept_filters_witness :
    (readStringExcept [-1, -1, -1, -1, -1, -1, -1, -1] 8 LookaheadMode.SKIP_ALL 127
        lineNumber).2.1 = [45, 49, 50, 46, 53, 0, -1, -1] := by
  rw [(readStringExcept_filters [-1, -1, -1, -1, -1, -1, -1, -1] 8 LookaheadMode.SKIP_ALL 127
    lineNumber (mkState 90 [] []) [32, 32, 45, 49, 50, 46, 53, 97, 98, 99] 10
    (by decide) (by decide) (by decide) (by decide) (by decide)).1]
  decide

/-- C2 as stated fails when the caller excludes null: DEL (0x7F) followed by LF
arrives, `wantChar` accepts DEL in mode `SKIP_NONE` with excluded character 0,
one accepted character is fewer than the capacity 4, yet the buffer is left
holding the empty string and not DEL followed by a null. -/
theorem readStringExcept_filters_counterexample :
    Delivers lineDEL ([127] ++ [10]) (mkState 90 [] []) ∧
    (∀ b ∈ [127], 32 ≤ b ∧ b ≤ 127) ∧ 10 < 32 ∧
    (accepted [127] LookaheadMode.SKIP_NONE 0).length < 4 ∧
    4 ≤ [(-1 : Int), -1, -1, -1].length ∧
    accepted [127] LookaheadMode.SKIP_NONE 0 = [127] ∧
    (readStringExcept [-1, -1, -1, -1] 4 LookaheadMode.SKIP_NONE 0 lineDEL).2.1
      = [0, -1, -1, -1] ∧
    (readStringExcept [-1, -1, -1, -1] 4 LookaheadMode.SKIP_NONE 0 lineDEL).2.1
      ≠ accepted [127] LookaheadMode.SKIP_NONE 0 ++ [0]
          ++ List.drop ((accepted [127] LookaheadMode.SKIP_NONE 0).length + 1)
              [-1, -1, -1, -1] := by
  decide

/-! ## Numeric parse of a buffer -/

theorem atolDigits_append_null (xs : List Int) : ∀ (acc : Int) (rest : List Int),
    atolDigits acc (xs ++ 0 :: rest) = atolDigits acc xs := by
  induction xs with
  | nil => intro acc rest; simp [atolDigits, isdigit]
  | cons x xs ih =>
    intro acc rest
    simp only [List.cons_append, atolDigits]
    split
    · exact ih _ _
    · rfl

theorem atolSigned_append_null (xs rest : List Int) :
    atolSigned (xs ++ 0 :: rest) = atolSigned xs := by
  cases xs with
  | nil => simp [atolSigned, atolDigits, isdigit]
  | cons x xs =>
    simp only [List.cons_append, atolSigned]
    have h := atolDigits_append_null xs 0 rest
    have h2 := atolDigits_append_null (x :: xs) 0 rest
    simp only [List.cons_append] at h2
    rw [h, h2]

theorem atolSkip_append_null (xs rest : List Int) :
    atolSkip (xs ++ 0 :: rest) = atolSkip xs := by
  induction xs with
  | nil => simp [atolSkip, isspace, atolSigned, atolDigits, isdigit]
  | cons x xs ih =>
    simp only [List.cons_append, atolSkip]
    split
    · exact ih
    · have := atolSigned_append_null (x :: xs) rest
      simpa using this

theorem atol_append_null (xs rest : List Int) : atol (xs ++ 0 :: rest) = atol xs := by
  simp [atol, atolSkip_append_null]

theorem take_succ_set {α : Type} (l : List α) : ∀ (n : Nat) (a : α), n < l.length →
    (l.set n a).take (n + 1) = l.take n ++ [a] := by
  induction l with
  | nil => intro n a h; simp at h
  | cons x xs ih =>
    intro n a h
    cases n with
    | zero => simp
    | succ n =>
      have := ih n a (by simpa using h)
      simp only [List.set_cons_succ, List.take_succ_cons, this, List.cons_append]

theorem getD_append_cons {α : Type} (pre : List α) (c d : α) (rest : List α) :
    (pre ++ c :: rest).getD pre.length d = c := by
  induction pre with
  | nil => rfl
  | cons x xs ih => simpa using ih

theorem parseIntLoop_run (bufLen : Nat) (txt : List Int) :
    ∀ (fuel : Nat) (pre : List Int) (k : Nat) (tail : List Int),
      (∀ c ∈ txt, c ≠ 0) → k ≤ pre.length →
      ((pre.length + txt.length : Nat) : Int) < toInt16 bufLen → txt.length < fuel →
      ∃ pre' : List Int, pre'.length = pre.length + txt.length ∧
        pre'.take (k + (keepNumeric txt).length) = pre.take k ++ keepNumeric txt ∧
        parseIntLoop bufLen fuel (pre.length : Int) ((k : Int) - 1) (pre ++ txt ++ 0 :: tail)
          = (((k + (keepNumeric txt).length : Nat) : Int) - 1, pre' ++ 0 :: tail) := by
  induction txt with
  | nil =>
    intro fuel pre k tail _ hk hn hf
    obtain ⟨f, rfl⟩ : ∃ f, fuel = f + 1 := ⟨fuel - 1, by simp at hf; omega⟩
    refine ⟨pre, by simp, by simp [keepNumeric], ?_⟩
    simp only [List.length_nil, Nat.add_zero] at hn
    have hget : (pre ++ [] ++ 0 :: tail).getD pre.length 0 = 0 := by
      rw [List.append_nil]; exact getD_append_cons pre 0 0 tail
    rw [parseIntLoop]
    simp only [hn, if_true, Int.toNat_ofNat, hget]
    simp [keepNumeric]
  | cons c cs ih =>
    intro fuel pre k tail hz hk hn hf
    obtain ⟨f, rfl⟩ : ∃ f, fuel = f + 1 := ⟨fuel - 1, by simp at hf; omega⟩
    have hc0 : c ≠ 0 := hz c (by simp)
    have hz' : ∀ x ∈ cs, x ≠ 0 := fun x hx => hz x (by simp [hx])
    simp only [List.length_cons] at hn hf
    have hi : (pre.length : Int) < toInt16 bufLen := by
      have : ((pre.length : Nat) : Int) ≤ ((pre.length + (cs.length + 1) : Nat) : Int) := by
        exact_mod_cast Nat.le_add_right _ _
      omega
    have hget : (pre ++ c :: cs ++ 0 :: tail).getD pre.length 0 = c := by
      rw [List.append_assoc]; exact getD_append_cons pre c 0 _
    have hbuf : pre ++ c :: cs ++ 0 :: tail = (pre ++ [c]) ++ cs ++ 0 :: tail := by
      simp [List.append_assoc]
    have hlen2 : ((pre ++ [c]).length : Int) = (pre.length : Int) + 1 := by simp
    have hn2 : (((pre ++ [c]).length + cs.length : Nat) : Int) < toInt16 bufLen := by
      have : (pre ++ [c]).length + cs.length = pre.length + (cs.length + 1) := by simp; omega
      rw [this]; exact hn
    rw [parseIntLoop]
    simp only [hi, if_true, Int.toNat_ofNat, hget, hc0, if_false]
    by_cases hw : wantChar c LookaheadMode.SKIP_ALL 127 = true
    · have hkeep : keepNumeric (c :: cs) = c :: keepNumeric cs := by
        simp [keepNumeric, List.filter_cons, hw]
      have hj : (k : Int) - 1 + 1 = (k : Int) := by omega
      simp only [hw, if_true, hj, Int.toNat_ofNat]
      by_cases hlt : k < pre.length
      · have hlt' : (k : Int) < (pre.length : Int) := by exact_mod_cast hlt
        have hset : (pre ++ c :: cs ++ 0 :: tail).set k c
            = (pre.set k c ++ [c]) ++ cs ++ 0 :: tail := by
          rw [List.append_assoc, List.set_append_left _ _ hlt]
          simp [List.append_assoc]
        obtain ⟨pre', h1, h2, h3⟩ := ih f (pre.set k c ++ [c]) (k + 1) tail hz'
          (by simp; omega) (by simpa using hn2) (by omega)
        refine ⟨pre', by rw [h1]; simp; omega, ?_, ?_⟩
        · rw [hkeep]
          have e : k + (c :: keepNumeric cs).length = k + 1 + (keepNumeric cs).length := by
            simp; omega
          rw [e, h2, List.take_append_of_le_length (by simp; omega), take_succ_set _ _ _ hlt]
          simp
        · simp only [hlt', if_true, hset]
          have e1 : ((pre.set k c ++ [c]).length : Int) = (pre.length : Int) + 1 := by simp
          have e2 : (((k + 1 : Nat) : Int) - 1) = (k : Int) := by omega
          rw [e1, e2] at h3
          rw [h3, hkeep]
          have e : k + (c :: keepNumeric cs).length = k + 1 + (keepNumeric cs).length := by
            simp; omega
          rw [e]
      · have hkeq : k = pre.length := by omega
        have hlt' : ¬ ((k : Int) < (pre.length : Int)) := by omega
        obtain ⟨pre', h1, h2, h3⟩ := ih f (pre ++ [c]) (k + 1) tail hz'
          (by simp; omega) hn2 (by omega)
        refine ⟨pre', by rw [h1]; simp; omega, ?_, ?_⟩
        · rw [hkeep]
          have e : k + (c :: keepNumeric cs).length = k + 1 + (keepNumeric cs).length := by
            simp; omega
          have ht : (pre ++ [c]).take (pre.length + 1) = pre ++ [c] :=
            List.take_of_length_le (by simp)
          rw [e, h2, hkeq, ht, List.take_of_length_le (le_refl _)]
          simp
        · simp only [hlt', if_false]
          have e2 : (((k + 1 : Nat) : Int) - 1) = (k : Int) := by omega
          rw [hlen2, e2, ← hbuf] at h3
          rw [h3, hkeep]
          have e : k + (c :: keepNumeric cs).length = k + 1 + (keepNumeric cs).length := by
            simp; omega
          rw [e]
    · have hkeep : keepNumeric (c :: cs) = keepNumeric cs := by
        simp [keepNumeric, List.filter_cons, hw]
      obtain ⟨pre', h1, h2, h3⟩ := ih f (pre ++ [c]) k tail hz'
        (by simp; omega) hn2 (by omega)
      refine ⟨pre', by rw [h1]; simp; omega, ?_, ?_⟩
      · rw [hkeep, h2, List.take_append_of_le_length hk]
      · simp only [hw, Bool.false_eq_true, if_false]
        rw [hlen2, ← hbuf] at h3
        rw [h3, hkeep]

theorem toInt16_small (n : Nat) (h : n < 32768) : toInt16 n = (n : Int) := by
  have h1 : n % 65536 = n := Nat.mod_eq_of_lt (by omega)
  simp [toInt16, h1, h]

theorem toInt16_pred (n : Nat) (h1 : 1 ≤ n) (h : n < 32768) :
    toInt16 (n + 65535) = (n : Int) - 1 := by
  have h2 : (n + 65535) % 65536 = n - 1 := by omega
  have h3 : n - 1 < 32768 := by omega
  simp only [toInt16, h2, h3, if_true]
  omega

/-- C3: a buffer holds a text without null, then a null at an index below the
capacity `bufLen` (capacities are below 32768, the range of the 16 bit `int`
that the code converts `bufLen` to); if at least two characters of the text are
digits or `+ - .`, then after the buffer-sourced `parseInt` the buffer begins
with exactly those characters, in order, followed by a null, and the value
returned is `atol` of that compacted text. -/
theorem parseIntBuf_compacts (txt tail : List Int) (bufLen : Nat)
    (hz : ∀ c ∈ txt, c ≠ 0) (hnull : txt.length < bufLen) (hint : bufLen < 32768)
    (htwo : 2 ≤ (keepNumeric txt).length) :
    (parseIntBuf (txt ++ 0 :: tail) bufLen).1 = atol (keepNumeric txt) ∧
    (parseIntBuf (txt ++ 0 :: tail) bufLen).2.take ((keepNumeric txt).length + 1)
      = keepNumeric txt ++ [0] := by
  have hkl : (keepNumeric txt).length ≤ txt.length := List.length_filter_le _ _
  have h16 := toInt16_small bufLen hint
  have h16p := toInt16_pred bufLen (by omega) hint
  obtain ⟨pre', h1, h2, h3⟩ := parseIntLoop_run bufLen txt bufLen [] 0 tail hz (le_refl _)
    (by rw [h16]; simp; omega) hnull
  simp only [List.length_nil, Nat.zero_add, List.take_nil, List.nil_append, Nat.cast_zero,
    Int.zero_sub] at h1 h2 h3
  have hfuel : (toInt16 bufLen).toNat = bufLen := by rw [h16]; simp
  have hj : ((keepNumeric txt).length : Int) - 1 > 0 := by omega
  have hj1 : ((keepNumeric txt).length : Int) - 1 + 1 = ((keepNumeric txt).length : Int) := by
    omega
  have hfit : ¬ (((keepNumeric txt).length : Int) > (bufLen : Int) - 1) := by omega
  have hlt : (keepNumeric txt).length < (pre' ++ 0 :: tail).length := by simp; omega
  have htake : ((pre' ++ 0 :: tail).set (keepNumeric txt).length 0).take
      ((keepNumeric txt).length + 1) = keepNumeric txt ++ [0] := by
    rw [take_succ_set _ _ _ hlt, List.take_append_of_le_length (by omega), h2]
  have hsplit := List.take_append_drop ((keepNumeric txt).length + 1)
    ((pre' ++ 0 :: tail).set (keepNumeric txt).length 0)
  rw [htake] at hsplit
  simp only [parseIntBuf, hfuel, h3, hj, if_true, hj1, h16p, hfit, if_false, Int.toNat_ofNat]
  refine ⟨?_, htake⟩
  rw [← hsplit]
  simp only [List.append_assoc, List.singleton_append]
  exact atol_append_null _ _

theorem parseIntBuf_compacts_witness :
    parseIntBuf [49, 50, 97, 51, 98, 52, 0] 7 = (1234, [49, 50, 51, 52, 0, 52, 0]) ∧
    (parseIntBuf [49, 50, 97, 51, 98, 52, 0] 7).1 = atol [49, 50, 51, 52] ∧
    (parseIntBuf [49, 50, 97, 51, 98, 52, 0] 7).2.take 5 = [49, 50, 51, 52, 0] :=
  ⟨by decide,
   parseIntBuf_compacts [49, 50, 97, 51, 98, 52] [] 7 (by decide) (by decide) (by decide)
    (by decide)⟩

/-! ## Timeout -/

theorem ticksSeen_succ (fut : List Event) (k : Nat) :
    ticksSeen fut (k + 1) = ticksSeen fut 1 + ticksSeen fut.tail k := by
  cases fut with
  | nil => simp [ticksSeen]; omega
  | cons ev rest =>
    simp only [ticksSeen, List.take_succ_cons, List.count_cons, List.length_cons, List.tail_cons,
      List.take_zero, List.count_nil]
    have h1 : k + 1 - (rest.length + 1) = k - rest.length := by omega
    have h2 : 1 - (rest.length + 1) = 0 := by omega
    rw [h1, h2]
    omega

theorem worldStep_silent (s : State) (hon : s.WDTOn = true)
    (he : s.WDTSecondsElapsed < 255)
    (hq : ∀ ev, s.future.head? = some ev → ev = Event.tick ∨ ev = Event.idle) :
    worldStep s = { s with WDTSecondsElapsed := s.WDTSecondsElapsed + ticksSeen s.future 1,
                           future := s.future.tail } := by
  have hmod : (s.WDTSecondsElapsed + 1) % 256 = s.WDTSecondsElapsed + 1 :=
    Nat.mod_eq_of_lt (by omega)
  cases hfut : s.future with
  | nil =>
    simp [worldStep, hfut, wdtISR, hon, hmod, ticksSeen]
  | cons ev rest =>
    rcases hq ev (by simp [hfut]) with h | h
    · subst h
      simp [worldStep, hfut, applyEvent, wdtISR, hon, hmod, ticksSeen]
    · subst h
      simp [worldStep, hfut, applyEvent, ticksSeen]

theorem ticksSeen_one_le (fut : List Event) : ticksSeen fut 1 ≤ 1 := by
  cases fut with
  | nil => simp [ticksSeen]
  | cons ev rest =>
    simp only [ticksSeen, List.take_succ_cons, List.take_zero, List.length_cons]
    have h2 : 1 - (rest.length + 1) = 0 := by omega
    rw [h2]
    have := List.count_le_length Event.tick [ev]
    simpa using this

theorem ticksSeen_one_cons (ev : Event) (q rest : List Event) :
    ticksSeen (ev :: q ++ rest) 1 + q.count Event.tick = (ev :: q).count Event.tick := by
  simp only [ticksSeen, List.cons_append, List.take_succ_cons, List.take_zero,
    List.length_cons, List.count_cons, List.count_nil]
  have h2 : 1 - ((q ++ rest).length + 1) = 0 := by omega
  rw [h2]
  omega

/-- The wait loop on a silent line: the schedule begins with a run `q` without
arrivals that lasts until the budget is used up (or nothing arrives at all).
The loop leaves through the timeout exit after `k` polls, where `k` is the
first poll after which the count is not below the budget. -/
theorem rxwaitLoop_silent (n : Nat) : ∀ (s : State) (q rest : List Event),
    s.rxFifo = [] → s.WDTOn = true → s.timeout_seconds_ < 256 →
    s.WDTSecondsElapsed < 255 →
    s.future = q ++ rest → (∀ ev ∈ q, ev = Event.tick ∨ ev = Event.idle) →
    (rest = [] ∨ (q ≠ [] ∧ s.timeout_seconds_ ≤ s.WDTSecondsElapsed + q.count Event.tick)) →
    s.future.length + (s.timeout_seconds_ - s.WDTSecondsElapsed) < n →
    ∃ k, 1 ≤ k ∧ (k ≤ q.length ∨ rest = []) ∧
      s.timeout_seconds_ ≤ s.WDTSecondsElapsed + ticksSeen s.future k ∧
      (∀ j, 1 ≤ j → j < k →
        s.WDTSecondsElapsed + ticksSeen s.future j < s.timeout_seconds_) ∧
      rxwaitLoop n s = (0x15,
        { s with receive_err_ := 1,
                 WDTSecondsElapsed := s.WDTSecondsElapsed + ticksSeen s.future k,
                 future := s.future.drop k }) := by
  induction n with
  | zero => intro s q rest _ _ _ _ _ _ _ hn; omega
  | succ n ih =>
    intro s q rest hf hon ht he hfut hq hlong hn
    have hhead : ∀ ev, s.future.head? = some ev → ev = Event.tick ∨ ev = Event.idle := by
      intro ev hev
      cases q with
      | nil =>
        rcases hlong with h | h
        · rw [hfut, h] at hev; simp at hev
        · exact absurd rfl h.1
      | cons x q' =>
        rw [hfut] at hev
        simp at hev
        exact hq ev (by simp [hev])
    have hws := worldStep_silent s hon he hhead
    have hd1 := ticksSeen_one_le s.future
    have hrxc : RXC0 { s with WDTSecondsElapsed := s.WDTSecondsElapsed + ticksSeen s.future 1,
                              future := s.future.tail } = false := by
      simp [RXC0, hf]
    have htail : s.future.tail = q.tail ++ rest := by
      cases q with
      | nil =>
        rcases hlong with h | h
        · rw [hfut, h]; rfl
        · exact absurd rfl h.1
      | cons x q' => rw [hfut]; rfl
    rw [rxwaitLoop, hws]
    simp only [hrxc, Bool.false_eq_true, if_false, WDTSecondTimer_tick]
    by_cases hlt : s.WDTSecondsElapsed + ticksSeen s.future 1 < s.timeout_seconds_
    · simp only [hlt, if_true]
      have hlong' : rest = [] ∨ (q.tail ≠ [] ∧
          s.timeout_seconds_ ≤ s.WDTSecondsElapsed + ticksSeen s.future 1
            + q.tail.count Event.tick) := by
        rcases hlong with h | ⟨hne, hcount⟩
        · exact Or.inl h
        · right
          cases q with
          | nil => exact absurd rfl hne
          | cons x q' =>
            have hc := ticksSeen_one_cons x q' rest
            rw [hfut]
            simp only [List.tail_cons]
            have hcnt : s.timeout_seconds_
                ≤ s.WDTSecondsElapsed + ticksSeen (x :: q' ++ rest) 1 + q'.count Event.tick := by
              omega
            refine ⟨?_, hcnt⟩
            intro hnil
            rw [hnil] at hcnt
            rw [hfut, hnil] at hlt
            simp at hcnt
            simp at hlt
            omega
      have hlen : s.future.tail.length + 1 ≤ s.future.length ∨ s.future = [] := by
        cases s.future with
        | nil => right; rfl
        | cons a l => left; simp
      obtain ⟨k, hk1, hk2, hk3, hk4, hk5⟩ := ih
        { s with WDTSecondsElapsed := s.WDTSecondsElapsed + ticksSeen s.future 1,
                 future := s.future.tail }
        q.tail rest hf hon ht (by simp only []; omega) htail
        (fun ev hev => hq ev (List.mem_of_mem_tail hev)) hlong'
        (by
          simp only []
          rcases hlen with h | h
          · omega
          · rw [h] at hlt hn ⊢
            simp only [List.tail_nil, List.length_nil] at hn ⊢
            have : ticksSeen [] 1 = 1 := by simp [ticksSeen]
            omega)
      simp only [] at hk3 hk4 hk5
      refine ⟨k + 1, by omega, ?_, ?_, ?_, ?_⟩
      · rcases hk2 with h | h
        · left
          cases q with
          | nil => simp at h; omega
          | cons x q' => simpa using h
        · exact Or.inr h
      · rw [ticksSeen_succ s.future k]; omega
      · intro j hj1 hj2
        obtain ⟨j', rfl⟩ : ∃ j', j = j' + 1 := ⟨j - 1, by omega⟩
        rw [ticksSeen_succ s.future j']
        rcases Nat.eq_zero_or_pos j' with h0 | hpos
        · subst h0
          simp only [ticksSeen, List.take_zero, List.count_nil, Nat.zero_sub, Nat.add_zero]
            at hlt ⊢
          exact hlt
        · have := hk4 j' hpos (by omega)
          omega
      · rw [hk5, ticksSeen_succ s.future k]
        simp [Nat.add_assoc]
    · simp only [hlt, if_false]
      refine ⟨1, le_refl _, ?_, by omega, fun j h1 h2 => by omega, ?_⟩
      · cases q with
        | nil =>
          rcases hlong with h | h
          · exact Or.inr h
          · exact absurd rfl h.1
        | cons x q' => left; simp
      · simp

/-- C5: the budget is a `uint8_t`; no byte is waiting once a flagged overrun has
been cleared, and the schedule begins with a run `q` of ticks and idle polls
that holds at least as many ticks as the budget (or the line stays silent for
good).  Then `readByte` returns 0x15 with error code 1, after exactly `k` polls,
where the count read after poll `k` is not below the budget and the count read
after every earlier poll is below it. -/
theorem readByte_timeout (s : State) (q rest : List Event)
    (ht : s.timeout_seconds_ < 256)
    (hnone : s.DOR0 = true ∨ s.rxFifo = [])
    (hfut : s.future = q ++ rest)
    (hq : ∀ ev ∈ q, ev = Event.tick ∨ ev = Event.idle)
    (hlong : rest = [] ∨ (q ≠ [] ∧ s.timeout_seconds_ ≤ q.count Event.tick)) :
    ∃ k, 1 ≤ k ∧ (k ≤ q.length ∨ rest = []) ∧
      s.timeout_seconds_ ≤ ticksSeen s.future k ∧
      (∀ j, 1 ≤ j → j < k → ticksSeen s.future j < s.timeout_seconds_) ∧
      readByte s = (0x15,
        { s with receive_err_ := 1, rxFifo := [], DOR0 := false, WDTOn := false,
                 WDTSecondsElapsed := ticksSeen s.future k,
                 future := s.future.drop k }) := by
  cases hdor : s.DOR0 with
  | true =>
    obtain ⟨k, h1, h2, h3, h4, h5⟩ := rxwaitLoop_silent (s.future.length + 256)
      { s with receive_err_ := 0, rxFifo := [], DOR0 := false, WDTOn := true,
               WDTSecondsElapsed := 0 } q rest rfl rfl ht (by simp) hfut hq
      (by simpa using hlong) (by simp only []; omega)
    simp only [Nat.zero_add] at h3 h4 h5
    refine ⟨k, h1, h2, h3, h4, ?_⟩
    rw [readByte_overrun s hdor, h5]
  | false =>
    have hf : s.rxFifo = [] := by
      rcases hnone with h | h
      · rw [hdor] at h; exact absurd h (by decide)
      · exact h
    obtain ⟨k, h1, h2, h3, h4, h5⟩ := rxwaitLoop_silent (s.future.length + 256)
      { s with receive_err_ := 0, WDTOn := true, WDTSecondsElapsed := 0 } q rest hf rfl ht
      (by simp) hfut hq (by simpa using hlong) (by simp only []; omega)
    simp only [Nat.zero_add] at h3 h4 h5
    refine ⟨k, h1, h2, h3, h4, ?_⟩
    rw [readByte_wait s hdor hf, h5]
    simp [hf, hdor]

/-- With budget 2 the timeout is declared after the fourth poll, the first one
at which two ticks have been counted; the later arrival stays in the schedule. -/
theorem readByte_timeout_witness :
    (∃ k, 1 ≤ k ∧ (k ≤ 5 ∨ [Event.arrive (Frame.mk 65 false false)] = []) ∧
      silentLine.timeout_seconds_ ≤ ticksSeen silentLine.future k ∧
      (∀ j, 1 ≤ j → j < k → ticksSeen silentLine.future j < silentLine.timeout_seconds_) ∧
      readByte silentLine = (0x15,
        { silentLine with receive_err_ := 1, rxFifo := [], DOR0 := false, WDTOn := false,
                          WDTSecondsElapsed := ticksSeen silentLine.future k,
                          future := silentLine.future.drop k })) ∧
    readByte silentLine = (0x15,
      { timeout_seconds_ := 2, receive_err_ := 1, rxFifo := [], DOR0 := false, WDTOn := false,
        WDTSecondsElapsed := 2,
        future := [Event.idle, Event.arrive (Frame.mk 65 false false)] }) :=
  ⟨readByte_timeout silentLine
      [Event.idle, Event.tick, Event.idle, Event.tick, Event.idle]
      [Event.arrive (Frame.mk 65 false false)]
      (by decide) (by decide) rfl (by decide) (by decide),
   by decide⟩

/-! ## The poll bounds are never reached -/

theorem worldStep_fields (s : State) :
    (worldStep s).timeout_seconds_ = s.timeout_seconds_ ∧
    (worldStep s).WDTOn = s.WDTOn ∧
    (worldStep s).future = s.future.tail := by
  cases hfut : s.future with
  | nil => simp only [worldStep, hfut, wdtISR]; split <;> simp [hfut]
  | cons ev rest =>
    cases ev with
    | arrive f => simp [worldStep, hfut, applyEvent]
    | tick => simp only [worldStep, hfut, applyEvent, wdtISR]; split <;> simp
    | idle => simp [worldStep, hfut, applyEvent]

theorem worldStep_count (s : State) (hon : s.WDTOn = true) (he : s.WDTSecondsElapsed < 255) :
    s.WDTSecondsElapsed ≤ (worldStep s).WDTSecondsElapsed ∧
    (worldStep s).WDTSecondsElapsed ≤ s.WDTSecondsElapsed + 1 ∧
    (s.future = [] → (worldStep s).WDTSecondsElapsed = s.WDTSecondsElapsed + 1) := by
  have hmod : (s.WDTSecondsElapsed + 1) % 256 = s.WDTSecondsElapsed + 1 :=
    Nat.mod_eq_of_lt (by omega)
  cases hfut : s.future with
  | nil => simp [worldStep, hfut, wdtISR, hon, hmod]
  | cons ev rest =>
    cases ev with
    | arrive f => simp [worldStep, hfut, applyEvent]
    | tick => simp [worldStep, hfut, applyEvent, wdtISR, hon, hmod]
    | idle => simp [worldStep, hfut, applyEvent]

/-- More polls than the bound that `rxwait` passes change nothing: with a
`uint8_t` budget the loop has left before the bound is used up. -/
theorem rxwaitLoop_fuel (n : Nat) : ∀ (s : State),
    s.WDTOn = true → s.timeout_seconds_ < 256 → s.WDTSecondsElapsed < 255 →
    s.future.length + (s.timeout_seconds_ - s.WDTSecondsElapsed) < n →
    ∀ m, n ≤ m → rxwaitLoop m s = rxwaitLoop n s := by
  induction n with
  | zero => intro s _ _ _ hn; omega
  | succ n ih =>
    intro s hon ht he hn m hm
    obtain ⟨m', rfl⟩ : ∃ m', m = m' + 1 := ⟨m - 1, by omega⟩
    obtain ⟨hw1, hw2, hw3⟩ := worldStep_fields s
    obtain ⟨hc1, hc2, hc3⟩ := worldStep_count s hon he
    rw [rxwaitLoop, rxwaitLoop]
    split
    · rfl
    · simp only [WDTSecondTimer_tick, hw1]
      split
      · rename_i hlt
        refine ih (worldStep s) (by rw [hw2]; exact hon) (by rw [hw1]; exact ht) (by omega) ?_
          m' (by omega)
        rw [hw1, hw3]
        cases hfut : s.future with
        | nil =>
          have := hc3 hfut
          rw [hfut] at hn
          simp only [List.length_nil, List.tail_nil] at hn ⊢
          omega
        | cons ev rest =>
          rw [hfut] at hn
          simp only [List.length_cons, List.tail_cons] at hn ⊢
          omega
      · rfl

theorem rxwait_fuel (s : State) (ht : s.timeout_seconds_ < 256) (m : Nat)
    (hm : s.future.length + 256 ≤ m) :
    rxwaitLoop m { s with WDTOn := true, WDTSecondsElapsed := 0 }
      = rxwaitLoop (s.future.length + 256) { s with WDTOn := true, WDTSecondsElapsed := 0 } := by
  have h1 : (0 : Nat) < 255 := by omega
  have h2 : s.future.length + (s.timeout_seconds_ - 0) < s.future.length + 256 := by omega
  exact rxwaitLoop_fuel (s.future.length + 256)
    { s with WDTOn := true, WDTSecondsElapsed := 0 } rfl ht h1 h2 m hm

/-- More passes than the bound that `readStringExcept` passes change nothing:
every pass that continues has read a byte without error, which uses up a frame
or an event. -/
theorem readStringExceptLoop_fuel (bufLen : Nat) (mode : LookaheadMode) (u : Int) (n : Nat) :
    ∀ (i : Nat) (buf : List Int) (s : State), pendingSize s < n →
    ∀ m, n ≤ m →
      readStringExceptLoop bufLen mode u m i buf s
        = readStringExceptLoop bufLen mode u n i buf s := by
  induction n with
  | zero => intro i buf s hn; omega
  | succ n ih =>
    intro i buf s hn m hm
    obtain ⟨m', rfl⟩ : ∃ m', m = m' + 1 := ⟨m - 1, by omega⟩
    have hdec := (readByte_facts s).2
    rw [readStringExceptLoop, readStringExceptLoop]
    simp only [read]
    split
    · split
      · rfl
      · rename_i hcont
        have he : (readByte s).2.receive_err_ = 0 := by
          by_contra h
          exact hcont (Or.inl h)
        have hlt := hdec he
        split
        · exact ih _ _ _ (by omega) m' (by omega)
        · exact ih _ _ _ (by omega) m' (by omega)
    · rfl


/-! ## Line reads: high-bit bytes and carriage-return -/

theorem toChar_high (x : Nat) (h1 : 128 ≤ x) (h2 : x ≤ 255) : toChar x = (x : Int) - 256 := by
  have hm : x % 256 = x := Nat.mod_eq_of_lt (by omega)
  have hn : ¬ (x < 128) := by omega
  simp [toChar, hm, hn]

/-- C11: after `k` text characters received cleanly, `k` below the capacity, a
byte with the high bit set that arrives without hardware fault makes
`readString` return `k` with error code 2; the `k` characters are in
`buf[0..k)`, the high-bit byte is not stored and every slot from `k` on is
unchanged. -/
theorem readString_high_bit (buf : List Int) (c : Nat) (s s' : State) (bs : List Nat) (x : Nat)
    (hbs : ∀ b ∈ bs, lineChar b) (hx : 128 ≤ x ∧ x ≤ 255)
    (hd : Delivers s (bs ++ [x]) s') (hk : bs.length < c) (hcap : c ≤ buf.length) :
    readString buf c s
      = (bs.length, bs.map Int.ofNat ++ buf.drop bs.length, { s' with receive_err_ := 2 }) := by
  have hd0 : Delivers { s with receive_err_ := 0 } (bs ++ [x]) s' :=
    (delivers_reset_of_ne s 0 _ s' (by simp)).mpr hd
  obtain ⟨m, hm, hlast⟩ := (delivers_append bs [x] _ s').mp hd0
  obtain ⟨hv, he, hs'⟩ := hlast
  rw [delivers_nil] at hs'
  have hne : c ≠ 0 := by omega
  obtain ⟨fuel, hf⟩ : ∃ fuel, c = (fuel + 1) + bs.length := ⟨c - bs.length - 1, by omega⟩
  have hrun := readStringLoop_run c bs (fuel + 1) 0 buf _ m hbs hm (by omega)
  have hfuel : ∀ st, readStringLoop c c 0 buf st
      = readStringLoop c (fuel + 1 + bs.length) 0 buf st := by
    intro st; rw [← hf]
  rw [readString, if_neg hne, hfuel, hrun]
  have hi : 0 + bs.length < c := by omega
  have hc : toChar x = (x : Int) - 256 := toChar_high x hx.1 hx.2
  have hneg : (x : Int) - 256 < 0 := by omega
  have hw := writeAt_eq (bs.map Int.ofNat) buf 0 (by simp; omega)
  simp only [List.length_map, Nat.zero_add, List.take_zero, List.nil_append] at hw
  rw [hw, hs']
  simp only [readStringLoop, hi, hk, if_true, hv, hc, he, hneg, and_self, ne_eq, Nat.zero_add]
  simp

theorem readString_high_bit_witness :
    readString [-1, -1, -1, -1] 4 lineHighBit
      = (2, [65, 66, -1, -1], { mkState 90 (cleanFrames [67]) [] with receive_err_ := 2 }) :=
  readString_high_bit [-1, -1, -1, -1] 4 lineHighBit (mkState 90 (cleanFrames [67]) [])
    [65, 66] 233 (by decide) (by decide) (by decide) (by decide) (by decide)

/-- What `readString` does at a carriage-return: it ends the line, then makes
exactly one further call of `readByte` and discards what it returns without
looking at it.  The machine is left as that call leaves it: a line-feed is
consumed, and so is any other byte that follows the carriage-return. -/
theorem readString_cr_discards_next (buf : List Int) (c : Nat) (s m : State) (bs : List Nat)
    (hbs : ∀ b ∈ bs, lineChar b) (hd : Delivers s (bs ++ [13]) m)
    (hk : bs.length < c) (hcap : c ≤ buf.length) :
    readString buf c s
      = (bs.length + 1, bs.map Int.ofNat ++ [0] ++ buf.drop (bs.length + 1),
          (readByte m).2) := by
  have hd0 : Delivers { s with receive_err_ := 0 } (bs ++ [13]) m :=
    (delivers_reset_of_ne s 0 _ m (by simp)).mpr hd
  obtain ⟨m0, hm, hlast⟩ := (delivers_append bs [13] _ m).mp hd0
  obtain ⟨hv, he, hs'⟩ := hlast
  rw [delivers_nil] at hs'
  have hne : c ≠ 0 := by omega
  obtain ⟨fuel, hf⟩ : ∃ fuel, c = (fuel + 1) + bs.length := ⟨c - bs.length - 1, by omega⟩
  have hrun := readStringLoop_run c bs (fuel + 1) 0 buf _ m0 hbs hm (by omega)
  have hfuel : ∀ st, readStringLoop c c 0 buf st
      = readStringLoop c (fuel + 1 + bs.length) 0 buf st := by
    intro st; rw [← hf]
  rw [readString, if_neg hne, hfuel, hrun]
  have hi : 0 + bs.length < c := by omega
  have hc : toChar 13 = 13 := by decide
  have hw := writeAt_eq (bs.map Int.ofNat) buf 0 (by simp; omega)
  simp only [List.length_map, Nat.zero_add, List.take_zero, List.nil_append] at hw
  have hdrop : buf.drop bs.length = buf[bs.length] :: buf.drop (bs.length + 1) :=
    List.drop_eq_getElem_cons (by omega)
  have h13 : ¬ (True ∧ (13 : Int) < 0) := by omega
  have hset : (bs.map Int.ofNat ++ buf.drop bs.length).set bs.length 0
      = bs.map Int.ofNat ++ [0] ++ buf.drop (bs.length + 1) := by
    rw [List.set_append_right _ _ (by simp)]
    simp only [List.length_map, Nat.sub_self, List.append_assoc, List.singleton_append]
    rw [hdrop]
    rfl
  rw [hw, hs']
  simp only [readStringLoop, hi, hk, if_true, hv, hc, he, h13, if_false, ne_eq,
    not_true_eq_false, Nat.zero_add, hset]

/-- After the line `"A\r"` the byte `'B'` is read and discarded; the next byte
that `readByte` returns is `'C'`. -/
theorem readString_cr_discards_next_example :
    readString [-1, -1, -1, -1] 4 lineBareCR
      = (2, [65, 0, -1, -1], mkState 90 (cleanFrames [67]) []) ∧
    (readByte (readString [-1, -1, -1, -1] 4 lineBareCR).2.2).1 = 67 := by
  have h := readString_cr_discards_next [-1, -1, -1, -1] 4 lineBareCR
    (mkState 90 (cleanFrames [66, 67]) []) [65] (by decide) (by decide) (by decide) (by decide)
  rw [h]
  decide

/-- C12: on `"A\rBC"` the carriage-return is followed by the pending byte
`'B'`, which is not a line-feed; `readString` returns the line `"A"` but the byte
`'B'` is gone from the receive buffer and the next `readByte` returns `'C'`, not
`'B'`.  On `"A\r"` with nothing behind it the same read waits out the budget and
the finished line comes back with error code 1. -/
theorem readString_bare_cr_discards_data :
    Delivers lineBareCR [65, 13] (mkState 90 (cleanFrames [66, 67]) []) ∧
    (readByte (mkState 90 (cleanFrames [66, 67]) [])).1 = 66 ∧
    readString [-1, -1, -1, -1] 4 lineBareCR
      = (2, [65, 0, -1, -1], mkState 90 (cleanFrames [67]) []) ∧
    (readByte (readString [-1, -1, -1, -1] 4 lineBareCR).2.2).1 = 67 ∧
    (readByte (readString [-1, -1, -1, -1] 4 lineBareCR).2.2).1 ≠ 66 ∧
    (readString [-1, -1, -1, -1] 4 lineCROnly).1 = 2 ∧
    (readString [-1, -1, -1, -1] 4 lineCROnly).2.1 = [65, 0, -1, -1] ∧
    (readString [-1, -1, -1, -1] 4 lineCROnly).2.2.receive_err_ = 1 := by
  decide

/-! ## Returned lengths and single characters -/

/-- C13: on the stream `"  -12.5abc\n"` with mode `SKIP_ALL` and capacity 8,
`readStringExcept` leaves the buffer holding `"-12.5"`, whose `strlen` is 5, and
returns 4. -/
theorem readStringExcept_returns_less_than_strlen :
    (readStringExcept [-1, -1, -1, -1, -1, -1, -1, -1] 8 LookaheadMode.SKIP_ALL 127
        lineNumber).2.1 = [45, 49, 50, 46, 53, 0, -1, -1] ∧
    strlen (readStringExcept [-1, -1, -1, -1, -1, -1, -1, -1] 8 LookaheadMode.SKIP_ALL 127
        lineNumber).2.1 = 5 ∧
    (readStringExcept [-1, -1, -1, -1, -1, -1, -1, -1] 8 LookaheadMode.SKIP_ALL 127
        lineNumber).1 = 4 := by
  decide

/-- C14: on the stream `"7\n"` the filtered text is `"7"`, `atol` of it is 7 and
no error is pending, yet the stream-sourced `parseInt` returns 0. -/
theorem parseInt_single_digit_stream :
    Delivers lineSeven [55, 10] (mkState 90 [] []) ∧
    accepted [55] LookaheadMode.SKIP_ALL 127 = [55] ∧
    atol (accepted [55] LookaheadMode.SKIP_ALL 127) = 7 ∧
    parseInt LookaheadMode.SKIP_ALL 127 lineSeven = (0, mkState 90 [] []) := by
  decide

/-- C15: the buffers `"7"` and `"a7b"` each hold exactly one accepted
character, the digit 7; the buffer-sourced `parseInt` returns 0 for both, leaves
`"7"` as it was and leaves `"a7b"` as `"77b"`. -/
theorem parseIntBuf_single_digit :
    keepNumeric [55] = [55] ∧ keepNumeric [97, 55, 98] = [55] ∧ atol [55] = 7 ∧
    parseIntBuf [55, 0] 2 = (0, [55, 0]) ∧
    parseIntBuf [97, 55, 98, 0] 4 = (0, [55, 55, 98, 0]) := by
  decide

/-- C16: no byte arrives and the first of the four reads times out; `readLong`
returns 21, the sentinel byte 0x15 that was stored into the first byte of the
zeroed `quadbyte` before the error check, not 0.  The error code is 1. -/
theorem readLong_timeout_returns_sentinel_byte :
    (readByte silentLine).2.receive_err_ = 1 ∧
    (readLong silentLine).1 = 21 ∧
    (readLong silentLine).2.receive_err_ = 1 := by
  decide

/-! ## The excluded character and the error code before a call -/

/-- C17: `readStringExcept` called with the excluded character null, CR or LF
gives the same return value, buffer and machine state as the same call with the
excluded character 0x7F, for every capacity, mode, buffer and machine state. -/
theorem readStringExcept_excluded_default (buf : List Int) (bufLen : Nat) (mode : LookaheadMode)
    (s : State) :
    readStringExcept buf bufLen mode 0 s = readStringExcept buf bufLen mode 127 s ∧
    readStringExcept buf bufLen mode 13 s = readStringExcept buf bufLen mode 127 s ∧
    readStringExcept buf bufLen mode 10 s = readStringExcept buf bufLen mode 127 s := by
  simp [readStringExcept, unwantedOf]

/-- C20: `readByte`, `readBytes`, `readString` and `readStringExcept` give the
same return value, the same buffer and the same final machine state, error code
included, from two states that differ only in the error code held before the
call. -/
theorem receive_overwrites_error (s : State) (e₁ e₂ : Nat) (bytes : List Nat)
    (chars : List Int) (bufLen : Nat) (mode : LookaheadMode) (ignore : Int) :
    readByte { s with receive_err_ := e₁ } = readByte { s with receive_err_ := e₂ } ∧
    readBytes bytes bufLen { s with receive_err_ := e₁ }
      = readBytes bytes bufLen { s with receive_err_ := e₂ } ∧
    readString chars bufLen { s with receive_err_ := e₁ }
      = readString chars bufLen { s with receive_err_ := e₂ } ∧
    readStringExcept chars bufLen mode ignore { s with receive_err_ := e₁ }
      = readStringExcept chars bufLen mode ignore { s with receive_err_ := e₂ } := by
  have hb : readByte { s with receive_err_ := e₁ } = readByte { s with receive_err_ := e₂ } := by
    rw [readByte_ignores_err s e₁, readByte_ignores_err s e₂]
  refine ⟨hb, ?_, ?_, ?_⟩
  · cases bufLen with
    | zero => simp [readBytes]
    | succ n =>
      simp only [readBytes, Nat.succ_ne_zero, if_false, readBytesLoop, Nat.zero_lt_succ, if_true,
        hb]
  · simp [readString]
  · simp [readStringExcept, pendingSize]

/-- What `readLong` returns when its first read fails: the byte that the failing
`readByte` returned sits in the lowest byte of the zeroed `quadbyte`. -/
theorem readLong_first_read_fails (s : State) (h : (readByte s).2.receive_err_ ≠ 0) :
    readLong s = (quadbyteLong [(readByte s).1, 0, 0, 0], (readByte s).2) := by
  simp [readLong, read4bytes, read4bytesFrom, h]


/-! ## Filtered token read: bounds and termination for every stream -/

theorem wantChar_of_unwantedOf (ch : Int) (mode : LookaheadMode) (ignore : Int)
    (h32 : 32 ≤ ch) (h : wantChar ch mode (unwantedOf ignore) = true) :
    wantChar ch mode ignore = true := by
  by_cases h0 : ignore = 0
  · subst h0
    simp only [unwantedOf, if_true] at h
    simp only [wantChar] at h ⊢
    split_ifs at h ⊢ <;> simp_all <;> omega
  · by_cases h13 : ignore = 13
    · subst h13
      simp only [unwantedOf] at h
      simp only [wantChar] at h ⊢
      split_ifs at h ⊢ <;> simp_all <;> omega
    · by_cases h10 : ignore = 10
      · subst h10
        simp only [unwantedOf] at h
        simp only [wantChar] at h ⊢
        split_ifs at h ⊢ <;> simp_all <;> omega
      · have : unwantedOf ignore = ignore := by simp [unwantedOf, h0, h13, h10]
        rw [this] at h
        exact h

theorem stored_set_null (mode : LookaheadMode) (ignore : Int) (c i : Nat) (b : List Int)
    (hi : i < c) (hc : c ≤ b.length) (hs : Stored mode ignore b i) :
    (b.set i 0).length = b.length ∧ (b.set i 0).drop c = b.drop c ∧
    Terminated mode ignore c (b.set i 0) := by
  refine ⟨by simp, List.drop_set_of_lt _ _ hi, i, by omega, ?_, ?_⟩
  · exact List.getElem?_set_self (by omega)
  · intro k hk
    obtain ⟨ch, h1, h2⟩ := hs k hk
    exact ⟨ch, by rw [List.getElem?_set_ne (by omega)]; exact h1, h2⟩

theorem stored_mono (mode : LookaheadMode) (ignore : Int) (b : List Int) (i j : Nat)
    (hji : j ≤ i) (hs : Stored mode ignore b i) : Stored mode ignore b j :=
  fun k hk => hs k (by omega)

theorem stored_set_char (mode : LookaheadMode) (ignore : Int) (i : Nat) (b : List Int) (ch : Int)
    (hi : i < b.length) (h0 : ch ≠ 0) (h32 : 32 ≤ ch)
    (hw : wantChar ch mode (unwantedOf ignore) = true) (hs : Stored mode ignore b i) :
    Stored mode ignore (b.set i ch) (i + 1) := by
  intro k hk
  by_cases hki : k = i
  · subst hki
    exact ⟨ch, List.getElem?_set_self hi, h0, wantChar_of_unwantedOf ch mode ignore h32 hw, hw⟩
  · obtain ⟨x, h1, h2⟩ := hs k (by omega)
    exact ⟨x, by rw [List.getElem?_set_ne (by omega)]; exact h1, h2⟩

theorem readStringExceptTail_safe (mode : LookaheadMode) (ignore : Int) (c i : Nat)
    (b : List Int) (s : State) (hc1 : 1 ≤ c) (hi : i ≤ c) (hc : c ≤ b.length)
    (hs : Stored mode ignore b i) :
    (readStringExceptTail c i b s).2.1.length = b.length ∧
    (readStringExceptTail c i b s).2.1.drop c = b.drop c ∧
    Terminated mode ignore c (readStringExceptTail c i b s).2.1 := by
  unfold readStringExceptTail
  split
  · by_cases hge : i ≥ c
    · simp only [hge, if_true]
      exact stored_set_null mode ignore c (c - 1) b (by omega) hc
        (stored_mono mode ignore b i (c - 1) (by omega) hs)
    · simp only [hge, if_false]
      exact stored_set_null mode ignore c i b (by omega) hc hs
  · split
    · exact stored_set_null mode ignore c i b (by omega) hc hs
    · exact stored_set_null mode ignore c i b (by omega) hc hs

theorem readStringExceptLoop_safe (mode : LookaheadMode) (ignore : Int) (c : Nat)
    (hc1 : 1 ≤ c) (fuel : Nat) :
    ∀ (i : Nat) (b : List Int) (s : State), i ≤ c → c ≤ b.length → Stored mode ignore b i →
    (readStringExceptLoop c mode (unwantedOf ignore) fuel i b s).2.1.length = b.length ∧
    (readStringExceptLoop c mode (unwantedOf ignore) fuel i b s).2.1.drop c = b.drop c ∧
    Terminated mode ignore c (readStringExceptLoop c mode (unwantedOf ignore) fuel i b s).2.1 := by
  induction fuel with
  | zero =>
    intro i b s hi hc hs
    exact readStringExceptTail_safe mode ignore c i b s hc1 hi hc hs
  | succ fuel ih =>
    intro i b s hi hc hs
    rw [readStringExceptLoop]
    split
    · rename_i hcond
      have hlt : i < c := hcond.2
      split
      · exact stored_set_null mode ignore c i b hlt hc hs
      · rename_i hgo
        have h32 : 32 ≤ (read s).1 := by
          by_contra hn
          exact hgo (Or.inr (by omega))
        split
        · rename_i hw
          have hst := stored_set_char mode ignore i b (read s).1 (by omega) hcond.1 h32 hw hs
          have := ih (i + 1) (b.set i (read s).1) (read s).2 (by omega) (by simpa using hc) hst
          refine ⟨by simpa using this.1, ?_, this.2.2⟩
          rw [this.2.1]
          exact List.drop_set_of_lt _ _ hlt
        · exact ih i b (read s).2 hi hc hs
    · exact readStringExceptTail_safe mode ignore c i b _ hc1 hi hc hs

/-- C18: for every capacity `c >= 1`, mode, excluded character, buffer of at
least `c` slots and machine state, `readStringExcept` changes no slot at index
`c` or beyond, and the buffer it leaves holds a null at some index
`j <= c - 1` with a non-null character that `wantChar` accepts in every slot
before `j`. -/
theorem readStringExcept_null_terminated (buf : List Int) (c : Nat) (mode : LookaheadMode)
    (ignore : Int) (s : State) (hc1 : 1 ≤ c) (hcap : c ≤ buf.length) :
    (readStringExcept buf c mode ignore s).2.1.length = buf.length ∧
    (readStringExcept buf c mode ignore s).2.1.drop c = buf.drop c ∧
    ∃ j, j ≤ c - 1 ∧ (readStringExcept buf c mode ignore s).2.1[j]? = some 0 ∧
      ∀ k, k < j → ∃ ch, (readStringExcept buf c mode ignore s).2.1[k]? = some ch ∧ ch ≠ 0 ∧
        wantChar ch mode ignore = true := by
  have hne : c ≠ 0 := by omega
  have h := readStringExceptLoop_safe mode ignore c hc1
    (pendingSize { s with receive_err_ := 0 } + 1) 0 buf { s with receive_err_ := 0 }
    (by omega) hcap (fun k hk => by omega)
  simp only [readStringExcept, if_neg hne]
  obtain ⟨h1, h2, j, hj, hz, hst⟩ := h
  refine ⟨h1, h2, j, hj, hz, fun k hk => ?_⟩
  obtain ⟨ch, e1, e2, e3, _⟩ := hst k hk
  exact ⟨ch, e1, e2, e3⟩


theorem readStringExcept_null_terminated_witness :
    (readStringExcept scratch4 3 LookaheadMode.SKIP_ALL 127 lineNumber).2.1
      = [45, 49, 0, -1] ∧
    ((readStringExcept scratch4 3 LookaheadMode.SKIP_ALL 127 lineNumber).2.1.length
        = scratch4.length ∧
      (readStringExcept scratch4 3 LookaheadMode.SKIP_ALL 127 lineNumber).2.1.drop 3
        = scratch4.drop 3 ∧
      ∃ j, j ≤ 3 - 1 ∧
        (readStringExcept scratch4 3 LookaheadMode.SKIP_ALL 127 lineNumber).2.1[j]? = some 0 ∧
        ∀ k, k < j → ∃ ch,
          (readStringExcept scratch4 3 LookaheadMode.SKIP_ALL 127 lineNumber).2.1[k]? = some ch
            ∧ ch ≠ 0 ∧ wantChar ch LookaheadMode.SKIP_ALL 127 = true) :=
  ⟨by decide,
   readStringExcept_null_terminated scratch4 3 LookaheadMode.SKIP_ALL 127 lineNumber
    (by decide) (by decide)⟩

/-! ## Filtered token read: more accepted characters than fit -/

theorem accepted_split (mode : LookaheadMode) (u : Int) (p : List Nat) :
    ∀ (c : Nat), 1 ≤ c → c ≤ (accepted p mode u).length →
    ∃ (p0 : List Nat) (b : Nat) (p2 : List Nat), p = p0 ++ b :: p2 ∧
      (accepted p0 mode u).length = c - 1 ∧
      wantChar (b : Int) mode u = true ∧
      accepted p0 mode u = (accepted p mode u).take (c - 1) := by
  induction p with
  | nil => intro c h1 h; simp [accepted] at h; omega
  | cons b bs ih =>
    intro c h1 h
    by_cases hw : wantChar (b : Int) mode u = true
    · have hacc : accepted (b :: bs) mode u = (b : Int) :: accepted bs mode u := by
        simp [accepted, List.filter_cons, hw]
      rw [hacc] at h ⊢
      simp only [List.length_cons] at h
      rcases Nat.lt_or_ge c 2 with hc | hc
      · have hc1 : c = 1 := by omega
        subst hc1
        exact ⟨[], b, bs, rfl, by simp [accepted], hw, by simp [accepted]⟩
      · obtain ⟨p0, x, p2, e1, e2, e3, e4⟩ := ih (c - 1) (by omega) (by omega)
        refine ⟨b :: p0, x, p2, by rw [e1]; rfl, ?_, e3, ?_⟩
        · have : accepted (b :: p0) mode u = (b : Int) :: accepted p0 mode u := by
            simp [accepted, List.filter_cons, hw]
          rw [this]; simp only [List.length_cons]; omega
        · have : accepted (b :: p0) mode u = (b : Int) :: accepted p0 mode u := by
            simp [accepted, List.filter_cons, hw]
          obtain ⟨c', rfl⟩ : ∃ c', c = c' + 2 := ⟨c - 2, by omega⟩
          rw [this, e4]
          simp
    · have hacc : accepted (b :: bs) mode u = accepted bs mode u := by
        simp [accepted, List.filter_cons, hw]
      rw [hacc] at h ⊢
      obtain ⟨p0, x, p2, e1, e2, e3, e4⟩ := ih c h1 h
      have : accepted (b :: p0) mode u = accepted p0 mode u := by
        simp [accepted, List.filter_cons, hw]
      exact ⟨b :: p0, x, p2, by rw [e1]; rfl, by rw [this]; exact e2, e3, by rw [this]; exact e4⟩

/-- C19, amended: when the stream delivers cleanly a run of bytes in 0x20..0x7F
of which at least `c` are accepted by `wantChar` for the effective excluded
character (the caller's, or 0x7F when the caller passes null, CR or LF), with
`c >= 1` the capacity, `readStringExcept` returns with error code 8 and the
buffer holding the first `c - 1` accepted characters followed by a null in the
last slot; slots from index `c` on are unchanged. -/
theorem readStringExcept_overflow (buf : List Int) (c : Nat) (mode : LookaheadMode)
    (ignore : Int) (s s' : State) (p : List Nat)
    (hc1 : 1 ≤ c) (hcap : c ≤ buf.length) (hp : ∀ b ∈ p, 32 ≤ b ∧ b ≤ 127)
    (hd : Delivers s p s') (hmany : c ≤ (accepted p mode (unwantedOf ignore)).length) :
    (readStringExcept buf c mode ignore s).2.2.receive_err_ = 8 ∧
    (readStringExcept buf c mode ignore s).2.1
      = (accepted p mode (unwantedOf ignore)).take (c - 1) ++ [0] ++ buf.drop c := by
  obtain ⟨p0, b, p2, hsplit, hlen0, hwb, htake⟩ :=
    accepted_split mode (unwantedOf ignore) p c hc1 hmany
  have hpne : p ≠ [] := by rw [hsplit]; simp
  have hd0 : Delivers { s with receive_err_ := 0 } p s' :=
    (delivers_reset_of_ne s 0 _ s' hpne).mpr hd
  have hsplit' : p = (p0 ++ [b]) ++ p2 := by rw [hsplit]; simp
  rw [hsplit'] at hd0
  obtain ⟨m, hm, _⟩ := (delivers_append (p0 ++ [b]) p2 _ s').mp hd0
  have hsize := delivers_pendingSize _ _ _ hm
  obtain ⟨m0, hm0, hb⟩ := (delivers_append p0 [b] _ m).mp hm
  obtain ⟨hv, he, hmeq⟩ := hb
  rw [delivers_nil] at hmeq
  simp only [List.length_append, List.length_singleton] at hsize
  obtain ⟨k, hk⟩ : ∃ k, pendingSize { s with receive_err_ := 0 } + 1
      = ((k + 1) + 1) + p0.length :=
    ⟨pendingSize { s with receive_err_ := 0 } - p0.length - 1, by omega⟩
  have hp0 : ∀ x ∈ p0, 32 ≤ x ∧ x ≤ 127 := fun x hx => hp x (by rw [hsplit]; simp [hx])
  have hpb : 32 ≤ b ∧ b ≤ 127 := hp b (by rw [hsplit]; simp)
  have hne : c ≠ 0 := by omega
  have hrun := readStringExceptLoop_run c mode (unwantedOf ignore) p0 ((k + 1) + 1) 0 buf _ m0
    hp0 hm0 (by omega)
  have hstep := readStringExceptLoop_step c mode (unwantedOf ignore) (k + 1)
    (0 + (accepted p0 mode (unwantedOf ignore)).length)
    (writeAt buf 0 (accepted p0 mode (unwantedOf ignore))) m0 b hpb hv he (by omega)
  have hw := writeAt_eq (accepted p0 mode (unwantedOf ignore)) buf 0 (by omega)
  have hdrop : buf.drop (c - 1) = buf[c - 1] :: buf.drop c := by
    have := List.drop_eq_getElem_cons (l := buf) (n := c - 1) (by omega)
    have e : c - 1 + 1 = c := by omega
    rw [e] at this
    exact this
  have hnlt : ¬ (c < c) := by omega
  have hge1 : c ≥ c - 1 := by omega
  have hidx : 0 + (c - 1) + 1 = c := by omega
  simp only [readStringExcept, if_neg hne]
  rw [hk, hrun, hstep, if_pos hwb, hlen0, hidx, ← hmeq]
  rw [readStringExceptLoop]
  simp only [hnlt, and_false, if_false, readStringExceptTail, hge1, if_true, ge_iff_le, le_refl]
  refine ⟨trivial, ?_⟩
  rw [hw, hlen0, ← htake]
  simp only [Nat.zero_add, List.take_zero, List.nil_append, List.set_set]
  rw [List.set_append_right _ _ (by omega), hlen0, Nat.sub_self, hdrop]
  simp only [List.set_cons_zero, List.append_assoc, List.singleton_append]

theorem readStringExcept_overflow_witness :
    (readStringExcept scratch4 3 LookaheadMode.SKIP_ALL 127 lineNumber).2.2.receive_err_ = 8 ∧
    (readStringExcept scratch4 3 LookaheadMode.SKIP_ALL 127 lineNumber).2.1
      = [45, 49, 0, -1] := by
  have h := readStringExcept_overflow scratch4 3 LookaheadMode.SKIP_ALL 127 lineNumber
    (mkState 90 (cleanFrames [10]) []) [32, 32, 45, 49, 50, 46, 53, 97, 98, 99]
    (by decide) (by decide) (by decide) (by decide) (by decide)
  refine ⟨h.1, ?_⟩
  rw [h.2]
  decide

/-- C19 as stated fails when the caller excludes null: capacity 1, mode
`SKIP_NONE`, DEL (0x7F) then LF arrive; `wantChar` accepts DEL for the excluded
character 0, so one accepted character in 0x20..0x7F is delivered before the
control byte, yet the call ends with error code 0, not 8. -/
theorem readStringExcept_overflow_counterexample :
    Delivers lineDEL [127] (mkState 90 (cleanFrames [10]) []) ∧
    (∀ b ∈ [127], 32 ≤ b ∧ b ≤ 127) ∧
    1 ≤ (accepted [127] LookaheadMode.SKIP_NONE 0).length ∧
    (readStringExcept scratch4 1 LookaheadMode.SKIP_NONE 0 lineDEL).2.2.receive_err_ = 0 ∧
    (readStringExcept scratch4 1 LookaheadMode.SKIP_NONE 0 lineDEL).2.2.receive_err_ ≠ 8 := by
  decide


/-! ## What the filtered read returns on a line that fits -/

theorem readStringExceptLoop_stop_ctrl (bufLen : Nat) (mode : LookaheadMode) (u : Int)
    (fuel i : Nat) (buf : List Int) (s : State) (t : Nat)
    (ht : 1 ≤ t ∧ t < 32) (hv : (readByte s).1 = t) (he : (readByte s).2.receive_err_ = 0)
    (hi : i < bufLen) :
    readStringExceptLoop bufLen mode u (fuel + 1) i buf s
      = (i - 1, buf.set i 0, (readByte s).2) := by
  have hc : toChar t = (t : Int) := toChar_of_lt t (by omega)
  have h32 : (t : Int) < 32 := by omega
  have h0 : ¬ ((t : Int) = 0) := by omega
  simp only [readStringExceptLoop, read, hv, hc, he, hi, and_true, h32, or_true, if_true, ne_eq,
    h0, not_false_eq_true]
  by_cases hpos : i > 0
  · simp [hpos]
  · have : i = 0 := by omega
    simp [this]

/-- On a run of printable bytes followed by a control byte other than null,
with fewer accepted characters than the capacity, `readStringExcept` returns the
number of stored characters less one (0 when nothing was stored). -/
theorem readStringExcept_line (buf : List Int) (bufLen : Nat) (mode : LookaheadMode)
    (ignore : Int) (s s' : State) (p : List Nat) (t : Nat)
    (hp : ∀ b ∈ p, 32 ≤ b ∧ b ≤ 127) (ht : 1 ≤ t ∧ t < 32) (hd : Delivers s (p ++ [t]) s')
    (hfit : (accepted p mode (unwantedOf ignore)).length < bufLen)
    (hcap : bufLen ≤ buf.length) :
    readStringExcept buf bufLen mode ignore s
      = ((accepted p mode (unwantedOf ignore)).length - 1,
         accepted p mode (unwantedOf ignore) ++ [0]
          ++ buf.drop ((accepted p mode (unwantedOf ignore)).length + 1), s') := by
  have hd0 : Delivers { s with receive_err_ := 0 } (p ++ [t]) s' :=
    (delivers_reset_of_ne s 0 _ s' (by simp)).mpr hd
  have hsize := delivers_pendingSize _ _ _ hd0
  obtain ⟨m, hm, ht'⟩ := (delivers_append p [t] _ s').mp hd0
  obtain ⟨hv, he, hs'⟩ := ht'
  rw [delivers_nil] at hs'
  simp only [List.length_append, List.length_singleton] at hsize
  obtain ⟨k, hk⟩ : ∃ k, pendingSize { s with receive_err_ := 0 } + 1 = (k + 1) + p.length :=
    ⟨pendingSize { s with receive_err_ := 0 } - p.length, by omega⟩
  have hne : bufLen ≠ 0 := by omega
  have hrun := readStringExceptLoop_run bufLen mode (unwantedOf ignore) p (k + 1) 0 buf _ m
    hp hm (by omega)
  have hstop := readStringExceptLoop_stop_ctrl bufLen mode (unwantedOf ignore) k
    (0 + (accepted p mode (unwantedOf ignore)).length)
    (writeAt buf 0 (accepted p mode (unwantedOf ignore))) m t ht hv he (by omega)
  have hw := writeAt_eq (accepted p mode (unwantedOf ignore)) buf 0 (by omega)
  have hdrop : buf.drop (accepted p mode (unwantedOf ignore)).length
      = buf[(accepted p mode (unwantedOf ignore)).length]
          :: buf.drop ((accepted p mode (unwantedOf ignore)).length + 1) :=
    List.drop_eq_getElem_cons (by omega)
  simp only [readStringExcept, if_neg hne]
  rw [hk, hrun, hstop, hw, hs']
  simp only [Nat.zero_add, List.take_zero, List.nil_append]
  rw [List.set_append_right _ _ (le_refl _), Nat.sub_self, hdrop]
  simp only [List.set_cons_zero, List.append_assoc, List.singleton_append]

/-- The stream-sourced `parseInt` with its default arguments on a line that
ends in LF: with two to nineteen accepted characters it returns `atol` of the
filtered text, with fewer than two it returns 0; the error code is 0. -/
theorem parseInt_line (s s' : State) (p : List Nat)
    (hp : ∀ b ∈ p, 32 ≤ b ∧ b ≤ 127) (hd : Delivers s (p ++ [10]) s')
    (hfit : (accepted p LookaheadMode.SKIP_ALL 127).length ≤ 19) :
    parseInt LookaheadMode.SKIP_ALL 127 s
      = (if 2 ≤ (accepted p LookaheadMode.SKIP_ALL 127).length
          then atol (accepted p LookaheadMode.SKIP_ALL 127) else 0, s') ∧
    s'.receive_err_ = 0 := by
  have hu : unwantedOf 127 = 127 := by decide
  have herr : s'.receive_err_ = 0 := by
    obtain ⟨m, _, hlast⟩ := (delivers_append p [10] s s').mp hd
    exact delivers_err 10 [] m s' hlast
  have h := readStringExcept_line (List.replicate 20 0) 20 LookaheadMode.SKIP_ALL 127 s s' p 10
    hp (by decide) hd (by rw [hu]; omega) (by simp)
  rw [hu] at h
  refine ⟨?_, herr⟩
  simp only [parseInt, h, herr, ne_eq, not_true_eq_false, or_false]
  by_cases h2 : 2 ≤ (accepted p LookaheadMode.SKIP_ALL 127).length
  · have hn0 : ¬ ((accepted p LookaheadMode.SKIP_ALL 127).length - 1 = 0) := by omega
    simp only [hn0, if_false, h2, if_true, List.append_assoc, List.singleton_append]
    rw [atol_append_null]
  · have h0 : (accepted p LookaheadMode.SKIP_ALL 127).length - 1 = 0 := by omega
    simp only [h0, if_true, h2, if_false]


/-! ## The error accessor -/

/-- C21: `error()` returns the stored error code and leaves the whole state
unchanged, error code and timeout included, so a second call right after the
first returns the same code. -/
theorem error_read_only (s : State) :
    error s = (s.receive_err_, s) ∧
    (error s).2.receive_err_ = s.receive_err_ ∧
    (error s).2.timeout_seconds_ = s.timeout_seconds_ ∧
    (error (error s).2).1 = (error s).1 := by
  simp [error]

/-! ## The wait: first poll, watchdog scope, overrun -/

theorem rxcompleted_fields (s : State) :
    (rxcompleted s).2.WDTOn = s.WDTOn ∧ (rxcompleted s).2.DOR0 = s.DOR0 ∧
    (rxcompleted s).2.timeout_seconds_ = s.timeout_seconds_ ∧
    (rxcompleted s).2.WDTSecondsElapsed = s.WDTSecondsElapsed ∧
    (rxcompleted s).2.future = s.future := by
  cases hf : s.rxFifo with
  | nil => simp [rxcompleted, FE0, UPE0, readUDR0, hf]
  | cons f rest => rw [rxcompleted_cons s f rest hf]; simp

theorem worldStep_DOR0 (s : State) : (worldStep s).DOR0 = s.DOR0 := by
  cases hfut : s.future with
  | nil => simp only [worldStep, hfut, wdtISR]; split <;> simp
  | cons ev rest =>
    cases ev with
    | arrive f => simp [worldStep, hfut, applyEvent]
    | tick => simp only [worldStep, hfut, applyEvent, wdtISR]; split <;> simp
    | idle => simp [worldStep, hfut, applyEvent]

theorem rxwaitLoop_fields (n : Nat) : ∀ (s : State),
    (rxwaitLoop n s).2.WDTOn = s.WDTOn ∧ (rxwaitLoop n s).2.DOR0 = s.DOR0 ∧
    (rxwaitLoop n s).2.timeout_seconds_ = s.timeout_seconds_ := by
  induction n with
  | zero => intro s; simp [rxwaitLoop]
  | succ n ih =>
    intro s
    obtain ⟨hw1, hw2, _⟩ := worldStep_fields s
    have hw3 := worldStep_DOR0 s
    rw [rxwaitLoop]
    split
    · obtain ⟨h1, h2, h3, _, _⟩ := rxcompleted_fields (worldStep s)
      exact ⟨h1.trans hw2, h2.trans hw3, h3.trans hw1⟩
    · split
      · obtain ⟨h1, h2, h3⟩ := ih (worldStep s)
        exact ⟨h1.trans hw2, h2.trans hw3, h3.trans hw1⟩
      · exact ⟨hw2, hw3, hw1⟩

/-- The normal form of `readByte` when it has to wait: the machine without
pending frames and without overrun flag enters `rxwait`. -/
theorem readByte_enters_rxwait (s : State) (h : s.DOR0 = true ∨ s.rxFifo = []) :
    readByte s = rxwait { s with receive_err_ := 0, rxFifo := [], DOR0 := false } := by
  cases hdor : s.DOR0 with
  | true =>
    rw [readByte_overrun s hdor]
    simp [rxwait, WDTSecondTimer_begin, WDTSecondTimer_reset, WDTSecondTimer_end]
  | false =>
    have hf : s.rxFifo = [] := by
      rcases h with h | h
      · rw [hdor] at h; exact absurd h (by decide)
      · exact h
    rw [readByte_wait s hdor hf]
    simp [rxwait, WDTSecondTimer_begin, WDTSecondTimer_reset, WDTSecondTimer_end, hf, hdor]

theorem rxwaitLoop_arrival (n : Nat) (s : State) (f : Frame) (rest : List Event)
    (hn : 1 ≤ n) (hf : s.rxFifo = []) (hfut : s.future = Event.arrive f :: rest) :
    rxwaitLoop n s = rxcompleted { s with rxFifo := [f], future := rest } := by
  obtain ⟨m, rfl⟩ : ∃ m, n = m + 1 := ⟨n - 1, by omega⟩
  rw [rxwaitLoop]
  simp [worldStep, hfut, applyEvent, hf, RXC0]

/-- C22: whatever the budget, 0 included, when no byte is pending at the call
(or a flagged overrun has been cleared) and a clean frame arrives before the
first poll of the wait, `readByte` returns its byte with error code 0; the
watchdog is off again and the rest of the schedule is untouched. -/
theorem readByte_first_poll (s : State) (f : Frame) (rest : List Event)
    (hnone : s.DOR0 = true ∨ s.rxFifo = [])
    (hfut : s.future = Event.arrive f :: rest)
    (hfe : f.fe = false) (hupe : f.upe = false) :
    readByte s = (f.data % 256,
      { s with receive_err_ := 0, rxFifo := [], DOR0 := false, WDTOn := false,
               WDTSecondsElapsed := 0, future := rest }) ∧
    (readByte s).1 = f.data % 256 ∧ (readByte s).2.receive_err_ = 0 := by
  have h : readByte s = (f.data % 256,
      { s with receive_err_ := 0, rxFifo := [], DOR0 := false, WDTOn := false,
               WDTSecondsElapsed := 0, future := rest }) := by
    rw [readByte_enters_rxwait s hnone]
    simp only [rxwait, WDTSecondTimer_begin, WDTSecondTimer_reset, WDTSecondTimer_end]
    have hstep := rxwaitLoop_arrival (s.future.length + 256)
      { timeout_seconds_ := s.timeout_seconds_, receive_err_ := 0, rxFifo := [], DOR0 := false,
        WDTOn := true, WDTSecondsElapsed := 0, future := s.future } f rest (by omega) rfl hfut
    rw [hstep, rxcompleted_cons _ f [] rfl]
    simp [hfe, hupe]
  exact ⟨h, by rw [h], by rw [h]⟩

theorem readByte_first_poll_witness :
    readByte zeroBudget = (66,
      { timeout_seconds_ := 0, receive_err_ := 0, rxFifo := [], DOR0 := false, WDTOn := false,
        WDTSecondsElapsed := 0, future := [Event.tick] }) :=
  (readByte_first_poll zeroBudget (Frame.mk 66 false false) [Event.tick]
    (by decide) rfl rfl rfl).1


theorem rxwait_stops_watchdog (s : State) : (rxwait s).2.WDTOn = false := by
  simp [rxwait, WDTSecondTimer_end]

/-- C23: when a byte is pending after overrun clearing, `readByte` leaves the
watchdog flag and its counter as they were: the tick source is not started.
Otherwise `readByte` is `rxwait`, which switches the watchdog on before the
loop; the flag is still set when the loop is left, by whichever exit, and it is
clear when the call returns.  So a call that starts with the watchdog off ends
with the watchdog off. -/
theorem readByte_tick_scope (s : State) :
    (s.DOR0 = false → s.rxFifo ≠ [] →
        (readByte s).2.WDTOn = s.WDTOn ∧
        (readByte s).2.WDTSecondsElapsed = s.WDTSecondsElapsed) ∧
    (s.DOR0 = true ∨ s.rxFifo = [] →
        readByte s = rxwait { s with receive_err_ := 0, rxFifo := [], DOR0 := false } ∧
        (rxwaitLoop (s.future.length + 256)
          (WDTSecondTimer_reset (WDTSecondTimer_begin
            { s with receive_err_ := 0, rxFifo := [], DOR0 := false }))).2.WDTOn = true ∧
        (readByte s).2.WDTOn = false) ∧
    (s.WDTOn = false → (readByte s).2.WDTOn = false) := by
  have h1 : s.DOR0 = false → s.rxFifo ≠ [] →
      (readByte s).2.WDTOn = s.WDTOn ∧
      (readByte s).2.WDTSecondsElapsed = s.WDTSecondsElapsed := by
    intro hdor hne
    cases hf : s.rxFifo with
    | nil => exact absurd hf hne
    | cons f rest => rw [readByte_ready s f rest hdor hf]; exact ⟨rfl, rfl⟩
  have h2 : s.DOR0 = true ∨ s.rxFifo = [] →
      readByte s = rxwait { s with receive_err_ := 0, rxFifo := [], DOR0 := false } ∧
      (rxwaitLoop (s.future.length + 256)
        (WDTSecondTimer_reset (WDTSecondTimer_begin
          { s with receive_err_ := 0, rxFifo := [], DOR0 := false }))).2.WDTOn = true ∧
      (readByte s).2.WDTOn = false := by
    intro h
    have e := readByte_enters_rxwait s h
    refine ⟨e, ?_, ?_⟩
    · rw [(rxwaitLoop_fields _ _).1]
      rfl
    · rw [e]
      exact rxwait_stops_watchdog _
  refine ⟨h1, h2, ?_⟩
  intro hoff
  by_cases hw : s.DOR0 = true ∨ s.rxFifo = []
  · exact (h2 hw).2.2
  · have hdor : s.DOR0 = false := by
      cases hd : s.DOR0 with
      | true => exact absurd (Or.inl hd) hw
      | false => rfl
    have hne : s.rxFifo ≠ [] := fun h => hw (Or.inr h)
    rw [(h1 hdor hne).1]
    exact hoff

/-- The watchdog is off after a timeout (`silentLine`), after a byte that
arrived during the wait (`zeroBudget`), after a garbled byte that arrived
during the wait and after an overrun recovery; it stays as it was when the byte
was already there. -/
theorem readByte_tick_scope_witness :
    (readByte silentLine).2.WDTOn = false ∧
    (readByte zeroBudget).2.WDTOn = false ∧
    (readByte overrunLine).2.WDTOn = false ∧
    (readByte (readByte secondGarbled).2).2.WDTOn = false ∧
    ((readByte fourthGarbled).2.WDTOn = fourthGarbled.WDTOn ∧
      (readByte fourthGarbled).2.WDTSecondsElapsed = fourthGarbled.WDTSecondsElapsed) :=
  ⟨((readByte_tick_scope silentLine).2.1 (by decide)).2.2,
   ((readByte_tick_scope zeroBudget).2.1 (by decide)).2.2,
   ((readByte_tick_scope overrunLine).2.1 (by decide)).2.2,
   ((readByte_tick_scope (readByte secondGarbled).2).2.1 (by decide)).2.2,
   (readByte_tick_scope fourthGarbled).1 (by decide) (by decide)⟩


/-- Where the result of a wait comes from: either the wait times out, or the
byte returned is that of the first frame to arrive in the schedule. -/
theorem rxwaitLoop_origin (n : Nat) : ∀ (s : State), s.rxFifo = [] →
    ((rxwaitLoop n s).1 = 0x15 ∧ (rxwaitLoop n s).2.receive_err_ = 1) ∨
    ∃ q f rest, s.future = q ++ Event.arrive f :: rest ∧
      (∀ ev ∈ q, ev = Event.tick ∨ ev = Event.idle) ∧
      (rxwaitLoop n s).1 = f.data % 256 ∧ (rxwaitLoop n s).2.future = rest ∧
      (rxwaitLoop n s).2.rxFifo = [] := by
  induction n with
  | zero => intro s _; left; simp [rxwaitLoop]
  | succ n ih =>
    intro s hf
    cases hfut : s.future with
    | nil =>
      have hw : worldStep s = wdtISR s := by simp [worldStep, hfut]
      have h1 : (wdtISR s).rxFifo = [] := by unfold wdtISR; split <;> simp [hf]
      have h2 : (wdtISR s).future = [] := by unfold wdtISR; split <;> simp [hfut]
      rw [rxwaitLoop, hw]
      simp only [RXC0, h1, List.isEmpty_nil, Bool.not_true, Bool.false_eq_true, if_false]
      split
      · rcases ih (wdtISR s) h1 with h | ⟨q, f, rest, e, _⟩
        · exact Or.inl h
        · rw [h2] at e; simp at e
      · left; exact ⟨rfl, rfl⟩
    | cons ev fut =>
      cases ev with
      | arrive f =>
        right
        have hstep := rxwaitLoop_arrival (n + 1) s f fut (by omega) hf hfut
        rw [hstep, rxcompleted_cons _ f [] rfl]
        exact ⟨[], f, fut, rfl, by simp, rfl, rfl, rfl⟩
      | tick =>
        have hw : worldStep s = wdtISR { s with future := fut } := by
          simp [worldStep, hfut, applyEvent]
        have h1 : (wdtISR { s with future := fut }).rxFifo = [] := by
          unfold wdtISR; split <;> simp [hf]
        have h2 : (wdtISR { s with future := fut }).future = fut := by
          unfold wdtISR; split <;> simp
        rw [rxwaitLoop, hw]
        simp only [RXC0, h1, List.isEmpty_nil, Bool.not_true, Bool.false_eq_true, if_false]
        split
        · rcases ih _ h1 with h | ⟨q, f, rest, e, hq, e1, e2, e3⟩
          · exact Or.inl h
          · right
            rw [h2] at e
            refine ⟨Event.tick :: q, f, rest, by rw [e]; rfl, ?_, e1, e2, e3⟩
            intro ev hev
            rcases List.mem_cons.mp hev with h | h
            · exact Or.inl h
            · exact hq ev h
        · left; exact ⟨rfl, rfl⟩
      | idle =>
        have hw : worldStep s = { s with future := fut } := by
          simp [worldStep, hfut, applyEvent]
        have h1 : ({ s with future := fut } : State).rxFifo = [] := hf
        rw [rxwaitLoop, hw]
        simp only [RXC0, hf, List.isEmpty_nil, Bool.not_true, Bool.false_eq_true, if_false]
        split
        · rcases ih { s with future := fut } h1 with h | ⟨q, f, rest, e, hq, e1, e2, e3⟩
          · left
            simpa [hf] using h
          · right
            have e' : fut = q ++ Event.arrive f :: rest := e
            refine ⟨Event.idle :: q, f, rest, by rw [e']; rfl, ?_, ?_, ?_, ?_⟩
            · intro ev hev
              rcases List.mem_cons.mp hev with h | h
              · exact Or.inr h
              · exact hq ev h
            · simpa [hf] using e1
            · simpa [hf] using e2
            · simpa [hf] using e3
        · left; exact ⟨rfl, rfl⟩

/-- C24: with the overrun flag set at the call, `readByte` empties the receive
buffer and clears the flag before anything else, then waits.  Its result does
not depend on the frames that were pending at the call: either it reports a
timeout, or the byte it returns is that of the first frame to arrive during the
wait. -/
theorem readByte_overrun_recovery (s : State) (hdor : s.DOR0 = true) :
    drainLoop s.rxFifo.length { s with receive_err_ := 0 }
      = { s with receive_err_ := 0, rxFifo := [] } ∧
    readByte s = rxwait { s with receive_err_ := 0, rxFifo := [], DOR0 := false } ∧
    (readByte s).2.DOR0 = false ∧
    (∀ stale : List Frame, readByte { s with rxFifo := stale } = readByte s) ∧
    (((readByte s).1 = 0x15 ∧ (readByte s).2.receive_err_ = 1) ∨
      ∃ q f rest, s.future = q ++ Event.arrive f :: rest ∧
        (∀ ev ∈ q, ev = Event.tick ∨ ev = Event.idle) ∧
        (readByte s).1 = f.data % 256 ∧ (readByte s).2.future = rest ∧
        (readByte s).2.rxFifo = []) := by
  have e := readByte_enters_rxwait s (Or.inl hdor)
  refine ⟨drainLoop_all s.rxFifo _ rfl, e, ?_, ?_, ?_⟩
  · rw [e]
    simp only [rxwait, WDTSecondTimer_end]
    rw [(rxwaitLoop_fields _ _).2.1]
    rfl
  · intro stale
    rw [e, readByte_enters_rxwait { s with rxFifo := stale } (Or.inl hdor)]
  · rw [e]
    have h := rxwaitLoop_origin (s.future.length + 256)
      (WDTSecondTimer_reset (WDTSecondTimer_begin
        { s with receive_err_ := 0, rxFifo := [], DOR0 := false })) rfl
    rcases h with h | ⟨q, f, rest, e1, hq, e2, e3, e4⟩
    · left; exact h
    · right; exact ⟨q, f, rest, e1, hq, e2, e3, e4⟩

/-- Two stale frames are waiting with the overrun flag set: both are dropped,
the flag is cleared and the byte returned is the one that arrives afterwards. -/
theorem readByte_overrun_recovery_witness :
    readByte overrunLine = (65, mkState 90 [] []) ∧
    (readByte overrunLine).2.DOR0 = false ∧
    (∀ stale : List Frame, readByte { overrunLine with rxFifo := stale } = readByte overrunLine) :=
  ⟨by decide,
   (readByte_overrun_recovery overrunLine rfl).2.2.1,
   (readByte_overrun_recovery overrunLine rfl).2.2.2.1⟩


/-! ## The error code of a token that fits -/

/-- What `readStringExcept` does when a null byte ends a run with fewer accepted
characters than the capacity: the buffer is as for any other line end, but with
exactly `bufLen - 1` accepted characters the error code is 8. -/
theorem readStringExcept_null_end (buf : List Int) (bufLen : Nat) (mode : LookaheadMode)
    (ignore : Int) (s s' : State) (p : List Nat)
    (hp : ∀ b ∈ p, 32 ≤ b ∧ b ≤ 127) (hd : Delivers s (p ++ [0]) s')
    (hfit : (accepted p mode (unwantedOf ignore)).length < bufLen)
    (hcap : bufLen ≤ buf.length) :
    readStringExcept buf bufLen mode ignore s
      = (if (accepted p mode (unwantedOf ignore)).length ≥ bufLen - 1
          then (accepted p mode (unwantedOf ignore)).length
          else (accepted p mode (unwantedOf ignore)).length - 1,
         accepted p mode (unwantedOf ignore) ++ [0]
          ++ buf.drop ((accepted p mode (unwantedOf ignore)).length + 1),
         if (accepted p mode (unwantedOf ignore)).length ≥ bufLen - 1
          then { s' with receive_err_ := 8 } else s') := by
  have hd0 : Delivers { s with receive_err_ := 0 } (p ++ [0]) s' :=
    (delivers_reset_of_ne s 0 _ s' (by simp)).mpr hd
  have hsize := delivers_pendingSize _ _ _ hd0
  obtain ⟨m, hm, ht'⟩ := (delivers_append p [0] _ s').mp hd0
  obtain ⟨hv, he, hs'⟩ := ht'
  rw [delivers_nil] at hs'
  simp only [List.length_append, List.length_singleton] at hsize
  obtain ⟨k, hk⟩ : ∃ k, pendingSize { s with receive_err_ := 0 } + 1 = (k + 1) + p.length :=
    ⟨pendingSize { s with receive_err_ := 0 } - p.length, by omega⟩
  have hne : bufLen ≠ 0 := by omega
  have hrun := readStringExceptLoop_run bufLen mode (unwantedOf ignore) p (k + 1) 0 buf _ m
    hp hm (by omega)
  have hw := writeAt_eq (accepted p mode (unwantedOf ignore)) buf 0 (by omega)
  have hdrop : buf.drop (accepted p mode (unwantedOf ignore)).length
      = buf[(accepted p mode (unwantedOf ignore)).length]
          :: buf.drop ((accepted p mode (unwantedOf ignore)).length + 1) :=
    List.drop_eq_getElem_cons (by omega)
  have hset : (accepted p mode (unwantedOf ignore)
        ++ buf.drop (accepted p mode (unwantedOf ignore)).length).set
          (accepted p mode (unwantedOf ignore)).length 0
      = accepted p mode (unwantedOf ignore) ++ [0]
          ++ buf.drop ((accepted p mode (unwantedOf ignore)).length + 1) := by
    rw [List.set_append_right _ _ (le_refl _), Nat.sub_self, hdrop]
    simp only [List.set_cons_zero, List.append_assoc, List.singleton_append]
  have hc : toChar 0 = 0 := by decide
  have hnge : ¬ ((accepted p mode (unwantedOf ignore)).length ≥ bufLen) := by omega
  simp only [readStringExcept, if_neg hne]
  rw [hk, hrun, readStringExceptLoop]
  simp only [read, hv, hc, ne_eq, not_true_eq_false, false_and, if_false, readStringExceptTail,
    Nat.zero_add, hnge]
  rw [hw]
  simp only [Nat.zero_add, List.take_zero, List.nil_append, hset, ← hs']
  by_cases hfull : (accepted p mode (unwantedOf ignore)).length ≥ bufLen - 1
  · simp only [hfull, if_true]
  · simp only [hfull, if_false]
    by_cases h0 : (accepted p mode (unwantedOf ignore)).length = 0
    · simp [h0]
    · simp [h0]

/-- C25: the token `"12"` has two accepted characters, capacity 3 leaves room for
them and the terminator.  Ended by LF the call leaves `"12"` with error code 0;
ended by a null byte it leaves the same buffer with error code 8. -/
theorem readStringExcept_null_end_flags_error :
    Delivers tokenLF [49, 50, 10] (mkState 90 [] []) ∧
    Delivers tokenNull [49, 50, 0] (mkState 90 [] []) ∧
    (accepted [49, 50] LookaheadMode.SKIP_ALL 127).length ≤ 3 - 1 ∧
    readStringExcept scratch4 3 LookaheadMode.SKIP_ALL 127 tokenLF
      = (1, [49, 50, 0, -1], mkState 90 [] []) ∧
    readStringExcept scratch4 3 LookaheadMode.SKIP_ALL 127 tokenNull
      = (2, [49, 50, 0, -1], { mkState 90 [] [] with receive_err_ := 8 }) := by
  decide

/-! ## Two-byte integer read -/

/-- C26: `readInt` returns 0 when its first `readByte` reports an error, and
also when the first succeeds and the second reports one; the machine, error
code included, is then as the failing read left it.  When both succeed it
returns the 16 bit integer whose bytes, low byte first as stored on AVR, are
the two bytes in the order received, and the error code is 0. -/
theorem readInt_result (s : State) :
    ((readByte s).2.receive_err_ ≠ 0 → readInt s = (0, (readByte s).2)) ∧
    ((readByte s).2.receive_err_ = 0 → (readByte (readByte s).2).2.receive_err_ ≠ 0 →
        readInt s = (0, (readByte (readByte s).2).2)) ∧
    ((readByte s).2.receive_err_ = 0 → (readByte (readByte s).2).2.receive_err_ = 0 →
        readInt s = (bytepairInt [(readByte s).1, (readByte (readByte s).2).1],
                      (readByte (readByte s).2).2) ∧
        (readInt s).2.receive_err_ = 0) := by
  refine ⟨?_, ?_, ?_⟩
  · intro h
    simp [readInt, h]
  · intro h1 h2
    simp [readInt, h1, h2]
  · intro h1 h2
    simp [readInt, h1, h2]

/-- The bytes 0x34 and 0x12 received cleanly give 0x1234; a frame error on the
second byte gives 0 with error code 2; a timeout on the first gives 0 with
error code 1. -/
theorem readInt_result_witness :
    readInt (mkState 90 (cleanFrames [52, 18]) []) = (4660, mkState 90 [] []) ∧
    readInt secondGarbled = (0, { mkState 90 [] [] with receive_err_ := 2 }) ∧
    (readInt silentLine).1 = 0 ∧ (readInt silentLine).2.receive_err_ = 1 := by
  refine ⟨?_, ?_, ?_, ?_⟩
  · rw [((readInt_result (mkState 90 (cleanFrames [52, 18]) [])).2.2 (by decide) (by decide)).1]
    decide
  · rw [(readInt_result secondGarbled).2.1 (by decide) (by decide)]
    decide
  · rw [(readInt_result silentLine).1 (by decide)]
  · rw [(readInt_result silentLine).1 (by decide)]
    decide

end DietSerial
